import Mathlib

/-!
Verification of the Reddit insight pipeline
(`Updated_azure_pipeline_nov_11.py`).

The Python source is shallowly embedded below.  Python strings are
modelled as `List Char` (ASCII text; the pipeline's parsing only uses
ASCII delimiters).  Python `dict`s with integer keys, as used for the
cluster maps, are modelled as insertion-ordered association lists
`List (Nat × List Int)`; the oracle (Azure OpenAI) is modelled by the
outcome of each call: either an exception (`Except.error`) covering
network failure after retries as well as unparseable/ill-typed replies
(every such exception reaches the same `except` handler in the source),
or the value the caller extracts from the reply.
-/

/-! ### Python string primitives -/

/-- Whitespace stripped by Python `str.strip()` (ASCII subset). -/
def pyIsSpace (c : Char) : Bool :=
  c == ' ' || c == '\t' || c == '\n' || c == '\r' || c == '\x0b' || c == '\x0c'

/-- Python `s.strip()`. -/
def pyStrip (l : List Char) : List Char :=
  (((l.dropWhile pyIsSpace).reverse).dropWhile pyIsSpace).reverse

/-- Python `s.lower()` (ASCII). -/
def pyLower (l : List Char) : List Char := l.map Char.toLower

/-- Python `s.split(c)` for a single-character separator: keeps empty
segments, never returns an empty list. -/
def splitOnChar (c : Char) : List Char → List (List Char)
  | [] => [[]]
  | d :: rest =>
    match splitOnChar c rest with
    | [] => [[]]
    | l :: ls => if d == c then [] :: l :: ls else (d :: l) :: ls

/-- Python `sub in s` (substring containment). -/
def pyIn (sub l : List Char) : Bool :=
  l.tails.any fun t => sub.isPrefixOf t

/-- Python `s.split(sep, 1)`: `none` when `sep` does not occur, otherwise
the part before the first occurrence and the part after it. -/
def splitFirst (sep : List Char) : List Char → Option (List Char × List Char)
  | [] => if sep.isPrefixOf ([] : List Char) then some ([], []) else none
  | c :: cs =>
    if sep.isPrefixOf (c :: cs) then some ([], (c :: cs).drop sep.length)
    else (splitFirst sep cs).map fun p => (c :: p.1, p.2)

/-- Python `s.split(':')[1]`: the segment between the first and the second
colon (to the end when there is only one); `none` when there is no colon,
in which case the source raises `IndexError`. -/
def pySplitColonGet1 (l : List Char) : Option (List Char) :=
  (splitFirst [':'] l).map fun p =>
    match splitFirst [':'] p.2 with
    | some q => q.1
    | none => p.2

/-- Digit run of a Python integer literal: `[0-9]` groups separated by
single underscores (`int("1_0") = 10`, `int("1__0")` raises). -/
def parseDigitsAux : Nat → List Char → Option Nat
  | acc, [] => some acc
  | acc, '_' :: c :: cs =>
    if c.isDigit then parseDigitsAux (acc * 10 + (c.toNat - 48)) cs else none
  | acc, c :: cs =>
    if c.isDigit then parseDigitsAux (acc * 10 + (c.toNat - 48)) cs else none

def parseDigits : List Char → Option Nat
  | [] => none
  | c :: cs => if c.isDigit then parseDigitsAux (c.toNat - 48) cs else none

/-- Python `int(s)` on ASCII text: strips whitespace, accepts one optional
sign, then a digit run; `none` models the `ValueError`. -/
def pyIntOfChars (l : List Char) : Option Int :=
  match pyStrip l with
  | '+' :: rest => (parseDigits rest).map fun n => (n : Int)
  | '-' :: rest => (parseDigits rest).map fun n => -(n : Int)
  | rest => (parseDigits rest).map fun n => (n : Int)

/-- The `POST_{n}:` marker used by every batch prompt/parser. -/
def postTag (n : Nat) : List Char := s!"POST_{n}:".toList

/-! ### `safe_llm_call` — the oracle-gateway retry wrapper

Source lines 96–107:
```
def safe_llm_call(fn, retries=3, delay=3):
    for i in range(retries):
        try:
            return fn()
        except Exception as e:
            if i < retries - 1:
                wait_time = delay * (2 ** i)
                time.sleep(wait_time)
            else:
                raise
```
The wrapped call is modelled by the outcome of each attempt
(`att i` = result of the `i`-th invocation of `fn`).  The model returns
the overall result (`.ok none` is the implicit `None` returned when
`retries = 0` and the loop body never runs), the list of back-off sleeps
in order, and the number of attempts actually invoked. -/

def retryGo {α E : Type} (att : Nat → Except E α) (delay retries i : Nat) :
    Except E (Option α) × List Nat × Nat :=
  if _h : i < retries then
    match att i with
    | .ok a => (.ok (some a), [], 1)
    | .error e =>
      if i < retries - 1 then
        let r := retryGo att delay retries (i + 1)
        (r.1, delay * 2 ^ i :: r.2.1, r.2.2 + 1)
      else (.error e, [], 1)
  else (.ok none, [], 0)
termination_by retries - i
decreasing_by omega

def safe_llm_call {α E : Type} (att : Nat → Except E α) (retries delay : Nat) :
    Except E (Option α) × List Nat × Nat :=
  retryGo att delay retries 0

/-- Attempt count is bounded by what remains of the retry budget. -/
theorem retryGo_attempts_le {α E : Type} (att : Nat → Except E α) (delay retries : Nat) :
    ∀ i, (retryGo att delay retries i).2.2 ≤ retries - i := by
  have key : ∀ n i, retries - i ≤ n → (retryGo att delay retries i).2.2 ≤ retries - i := by
    intro n
    induction n with
    | zero =>
      intro i h
      rw [retryGo]
      have hge : ¬ i < retries := by omega
      rw [dif_neg hge]
      exact Nat.zero_le _
    | succ n ih =>
      intro i h
      rw [retryGo]
      split
      next hlt =>
        split
        next =>
          show (1 : Nat) ≤ retries - i
          omega
        next =>
          split
          next h2 =>
            have := ih (i + 1) (by omega)
            show (retryGo att delay retries (i + 1)).2.2 + 1 ≤ retries - i
            omega
          next h2 =>
            show (1 : Nat) ≤ retries - i
            omega
      next hge => exact Nat.zero_le _
  intro i
  exact key (retries - i) i le_rfl

/-- A first success at attempt `j` (all earlier attempts from `i` on
failing) returns that attempt's value, after sleeping
`delay * 2 ^ k` for each failed attempt `k`. -/
theorem retryGo_first_success {α E : Type} (att : Nat → Except E α) (delay retries j : Nat)
    (v : α) (hj : j < retries) (hok : att j = .ok v) :
    ∀ n i, j - i ≤ n → i ≤ j →
      (∀ k, i ≤ k → k < j → ∃ e, att k = .error e) →
      retryGo att delay retries i =
        (.ok (some v), (List.range' i (j - i)).map (fun k => delay * 2 ^ k), (j - i) + 1) := by
  intro n
  induction n with
  | zero =>
    intro i h hij hfail
    have heq : i = j := by omega
    subst heq
    rw [retryGo, dif_pos hj, hok]
    simp
  | succ n ih =>
    intro i h hij hfail
    rcases Nat.eq_or_lt_of_le hij with heq | hlt
    · subst heq
      rw [retryGo, dif_pos hj, hok]
      simp
    · obtain ⟨e, he⟩ := hfail i le_rfl hlt
      have hi : i < retries := lt_trans hlt hj
      have hi2 : i < retries - 1 := by omega
      have hrec := ih (i + 1) (by omega) (by omega)
        (fun k hk1 hk2 => hfail k (by omega) hk2)
      rw [retryGo, dif_pos hi, he]
      show (if i < retries - 1 then
          ((retryGo att delay retries (i + 1)).1,
            delay * 2 ^ i :: (retryGo att delay retries (i + 1)).2.1,
            (retryGo att delay retries (i + 1)).2.2 + 1)
        else (.error e, [], 1)) =
        (.ok (some v), (List.range' i (j - i)).map (fun k => delay * 2 ^ k), (j - i) + 1)
      rw [if_pos hi2, hrec]
      have hr : j - i = (j - (i + 1)) + 1 := by omega
      rw [hr, List.range'_succ, List.map_cons]

/-- When every attempt from `i` on fails, the final attempt's failure is
re-raised, after sleeping for every failed attempt but the last. -/
theorem retryGo_all_fail {α E : Type} (att : Nat → Except E α) (delay retries : Nat)
    (e : E) (hlast : att (retries - 1) = .error e) :
    ∀ n i, retries - 1 - i ≤ n → i < retries →
      (∀ k, i ≤ k → k < retries → ∃ e2, att k = .error e2) →
      retryGo att delay retries i =
        (.error e, (List.range' i (retries - 1 - i)).map (fun k => delay * 2 ^ k),
          retries - i) := by
  have base : ∀ i, i < retries → i = retries - 1 →
      retryGo att delay retries i =
        (.error e, (List.range' i (retries - 1 - i)).map (fun k => delay * 2 ^ k),
          retries - i) := by
    intro i hi hend
    subst hend
    have hne : ¬ (retries - 1 < retries - 1) := lt_irrefl _
    rw [retryGo, dif_pos hi, hlast]
    show (if retries - 1 < retries - 1 then
        ((retryGo att delay retries (retries - 1 + 1)).1,
          delay * 2 ^ (retries - 1) :: (retryGo att delay retries (retries - 1 + 1)).2.1,
          (retryGo att delay retries (retries - 1 + 1)).2.2 + 1)
      else (.error e, [], 1)) =
      (.error e,
        (List.range' (retries - 1) (retries - 1 - (retries - 1))).map (fun k => delay * 2 ^ k),
        retries - (retries - 1))
    rw [if_neg hne]
    have h1 : retries - 1 - (retries - 1) = 0 := by omega
    have h2 : retries - (retries - 1) = 1 := by omega
    rw [h1, h2]
    simp
  intro n
  induction n with
  | zero =>
    intro i h hi hfail
    exact base i hi (by omega)
  | succ n ih =>
    intro i h hi hfail
    by_cases hend : i = retries - 1
    · exact base i hi hend
    · obtain ⟨e2, he2⟩ := hfail i le_rfl hi
      have hi2 : i < retries - 1 := by omega
      have hrec := ih (i + 1) (by omega) (by omega)
        (fun k hk1 hk2 => hfail k (by omega) hk2)
      rw [retryGo, dif_pos hi, he2]
      show (if i < retries - 1 then
          ((retryGo att delay retries (i + 1)).1,
            delay * 2 ^ i :: (retryGo att delay retries (i + 1)).2.1,
            (retryGo att delay retries (i + 1)).2.2 + 1)
        else (.error e2, [], 1)) =
        (.error e, (List.range' i (retries - 1 - i)).map (fun k => delay * 2 ^ k),
          retries - i)
      rw [if_pos hi2, hrec]
      have hr : retries - 1 - i = (retries - 1 - (i + 1)) + 1 := by omega
      rw [hr, List.range'_succ, List.map_cons]
      have h3 : retries - i = (retries - (i + 1)) + 1 := by omega
      rw [h3]

/-- C9: the oracle-gateway retry wrapper invokes the wrapped operation at
most `retries` times; a success at any attempt returns that attempt's
result immediately (having waited `delay * 2 ^ k` after each earlier,
failed attempt); and when every attempt fails, the final attempt's
failure is re-raised with no partial result, the last failure sleeping
nothing. -/
theorem safe_llm_call_retry_contract {α E : Type} (att : Nat → Except E α)
    (retries delay : Nat) (hr : 1 ≤ retries) :
    (safe_llm_call att retries delay).2.2 ≤ retries ∧
    (∀ j v, j < retries → att j = .ok v → (∀ k, k < j → ∃ e, att k = .error e) →
      safe_llm_call att retries delay =
        (.ok (some v), (List.range j).map (fun k => delay * 2 ^ k), j + 1)) ∧
    (∀ e, (∀ k, k < retries → ∃ e2, att k = .error e2) → att (retries - 1) = .error e →
      safe_llm_call att retries delay =
        (.error e, (List.range (retries - 1)).map (fun k => delay * 2 ^ k), retries)) := by
  refine ⟨?_, ?_, ?_⟩
  · have := retryGo_attempts_le att delay retries 0
    simpa [safe_llm_call] using this
  · intro j v hj hok hfail
    have := retryGo_first_success att delay retries j v hj hok j 0 (by omega) (Nat.zero_le j)
      (fun k _ hk2 => hfail k hk2)
    simpa [safe_llm_call, List.range_eq_range'] using this
  · intro e hfail hlast
    have := retryGo_all_fail att delay retries e hlast (retries - 1) 0 (by omega) (by omega)
      (fun k _ hk2 => hfail k hk2)
    simpa [safe_llm_call, List.range_eq_range'] using this

def c9Att : Nat → Except String Nat := fun n => if n = 0 then .error "boom" else .ok 7

/-- Witness for C9: with 3 retries and base delay 3, a failure at attempt 0
followed by a success at attempt 1 yields the success value after one
sleep of `3 * 2 ^ 0 = 3`, having made 2 attempts. -/
theorem safe_llm_call_retry_contract_witness :
    (1 ≤ 3 ∧ (1 : Nat) < 3 ∧ c9Att 1 = .ok 7) ∧
      safe_llm_call c9Att 3 3 = (.ok (some 7), [3], 2) := by
  refine ⟨⟨by omega, by omega, rfl⟩, ?_⟩
  have hfail : ∀ k, k < 1 → ∃ e, c9Att k = Except.error e := by
    intro k hk
    have hk0 : k = 0 := by omega
    subst hk0
    exact ⟨"boom", rfl⟩
  have h := (safe_llm_call_retry_contract c9Att 3 3 (by omega)).2.1 1 7 (by omega) rfl hfail
  simpa using h

/-! ### `summarize_batch` — response parsing (source lines 296–333)

```
lines = result.split('\n')
for i in range(len(posts)):
    post_line = None
    for line in lines:
        if line.strip().startswith(f"POST_{i+1}:"):
            post_line = line.strip()
            break
    summary_text = posts[i]['title']
    sentiment_label = "neutral"
    if post_line:
        try:
            after_colon = post_line.split(":", 1)[1].strip()
            if "||" in after_colon:
                summary_part, sentiment_part = after_colon.split("||", 1)
                summary_text = summary_part.strip()
                if "SENTIMENT" in sentiment_part:
                    raw = sentiment_part.split("SENTIMENT", 1)[1]
                    raw = raw.split(":", 1)[1] if ":" in raw else raw
                    raw = raw.strip().lower()
                    ...
            else:
                summary_text = after_colon
        except Exception:
            pass
    parsed_results.append({"summary": summary_text, "sentiment": sentiment_label})
```
Only the record titles and the raw oracle text matter to the parse, so the
model takes those.  `Option.elim` stands for the `match`/`if post_line`
branching; the unreachable `none` arms double as the `except` fallback. -/

def findPostLine (lines : List (List Char)) (tag : List Char) : Option (List Char) :=
  (lines.find? fun line => tag.isPrefixOf (pyStrip line)).map pyStrip

def sentimentRaw (sentiment_part : List Char) : List Char :=
  (splitFirst "SENTIMENT".toList sentiment_part).elim sentiment_part fun r =>
    if pyIn [':'] r.2 then (splitFirst [':'] r.2).elim r.2 (fun r2 => r2.2) else r.2

def sentimentLabel (raw : List Char) : List Char :=
  if pyIn "pos".toList raw then "positive".toList
  else if pyIn "neg".toList raw then "negative".toList
  else "neutral".toList

def parsePostLine (title post_line : List Char) : List Char × List Char :=
  (splitFirst [':'] post_line).elim (title, "neutral".toList) fun p =>
    if pyIn ['|', '|'] (pyStrip p.2) then
      (splitFirst ['|', '|'] (pyStrip p.2)).elim (title, "neutral".toList) fun q =>
        if pyIn "SENTIMENT".toList q.2 then
          (pyStrip q.1, sentimentLabel (pyLower (pyStrip (sentimentRaw q.2))))
        else (pyStrip q.1, "neutral".toList)
    else (pyStrip p.2, "neutral".toList)

def summarize_batch_parse (titles : List (List Char)) (result : List Char) :
    List (List Char × List Char) :=
  (List.range titles.length).map fun i =>
    (findPostLine (splitOnChar '\n' result) (postTag (i + 1))).elim
      (titles.getD i [], "neutral".toList)
      (fun pl => parsePostLine (titles.getD i []) pl)

theorem sentimentLabel_range (raw : List Char) :
    sentimentLabel raw = "positive".toList ∨ sentimentLabel raw = "negative".toList ∨
      sentimentLabel raw = "neutral".toList := by
  unfold sentimentLabel
  split_ifs
  · exact Or.inl rfl
  · exact Or.inr (Or.inl rfl)
  · exact Or.inr (Or.inr rfl)

theorem parsePostLine_sentiment_range (title post_line : List Char) :
    (parsePostLine title post_line).2 = "positive".toList ∨
      (parsePostLine title post_line).2 = "negative".toList ∨
      (parsePostLine title post_line).2 = "neutral".toList := by
  unfold parsePostLine
  cases h1 : splitFirst [':'] post_line with
  | none => exact Or.inr (Or.inr rfl)
  | some p =>
    simp only [Option.elim_some]
    by_cases h2 : pyIn ['|', '|'] (pyStrip p.2)
    · rw [if_pos h2]
      cases h3 : splitFirst ['|', '|'] (pyStrip p.2) with
      | none => exact Or.inr (Or.inr rfl)
      | some q =>
        simp only [Option.elim_some]
        by_cases h4 : pyIn "SENTIMENT".toList q.2
        · rw [if_pos h4]
          exact sentimentLabel_range _
        · rw [if_neg h4]
          exact Or.inr (Or.inr rfl)
    · rw [if_neg h2]
      exact Or.inr (Or.inr rfl)

theorem summarize_batch_parse_getD (titles : List (List Char)) (result : List Char)
    (i : Nat) (hi : i < titles.length) :
    (summarize_batch_parse titles result).getD i ([], []) =
      (findPostLine (splitOnChar '\n' result) (postTag (i + 1))).elim
        (titles.getD i [], "neutral".toList)
        (fun pl => parsePostLine (titles.getD i []) pl) := by
  unfold summarize_batch_parse
  rw [List.getD_eq_getElem?_getD, List.getElem?_map, List.getElem?_range hi]
  rfl

/-- C6: the summarization batch parser returns exactly one
(summary, sentiment) pair per input record, in input order, for every
oracle response: a record with no matching response line (first line
whose stripped form starts with its `POST_{i+1}:` tag) falls back to
(title, neutral); a record with a matching line gets that line's parse;
and the sentiment is always one of positive/negative/neutral (substring
match, anything else mapping to neutral).  The parse is total — no
record is dropped and nothing is raised. -/
theorem summarize_batch_parse_per_record (titles : List (List Char)) (result : List Char) :
    (summarize_batch_parse titles result).length = titles.length ∧
    ∀ i, i < titles.length →
      (findPostLine (splitOnChar '\n' result) (postTag (i + 1)) = none →
        (summarize_batch_parse titles result).getD i ([], []) =
          (titles.getD i [], "neutral".toList)) ∧
      (∀ pl, findPostLine (splitOnChar '\n' result) (postTag (i + 1)) = some pl →
        (summarize_batch_parse titles result).getD i ([], []) =
          parsePostLine (titles.getD i []) pl) ∧
      (((summarize_batch_parse titles result).getD i ([], [])).2 = "positive".toList ∨
        ((summarize_batch_parse titles result).getD i ([], [])).2 = "negative".toList ∨
        ((summarize_batch_parse titles result).getD i ([], [])).2 = "neutral".toList) := by
  refine ⟨by simp [summarize_batch_parse], ?_⟩
  intro i hi
  have hg := summarize_batch_parse_getD titles result i hi
  refine ⟨?_, ?_, ?_⟩
  · intro hnone
    rw [hg, hnone]
    rfl
  · intro pl hsome
    rw [hg, hsome]
    rfl
  · rw [hg]
    cases hline : findPostLine (splitOnChar '\n' result) (postTag (i + 1)) with
    | none => exact Or.inr (Or.inr rfl)
    | some pl =>
      simp only [Option.elim_some]
      exact parsePostLine_sentiment_range _ _

def c6Titles : List (List Char) := ["t one".toList, "t two".toList, "t three".toList]

def c6Result : List Char := "POST_2: Nice product || SENTIMENT: positive".toList

/-- Witness for C6: a 3-record batch whose oracle response contains a line
for record 2 only — records 1 and 3 fall back to (title, neutral) and
record 2 gets its parsed summary and sentiment. -/
theorem summarize_batch_parse_per_record_witness :
    ((0 : Nat) < 3 ∧ (1 : Nat) < 3 ∧ (2 : Nat) < 3) ∧
    (summarize_batch_parse c6Titles c6Result).length = 3 ∧
    (summarize_batch_parse c6Titles c6Result).getD 0 ([], []) =
      ("t one".toList, "neutral".toList) ∧
    (summarize_batch_parse c6Titles c6Result).getD 1 ([], []) =
      ("Nice product".toList, "positive".toList) ∧
    (summarize_batch_parse c6Titles c6Result).getD 2 ([], []) =
      ("t three".toList, "neutral".toList) := by
  have h := summarize_batch_parse_per_record c6Titles c6Result
  refine ⟨⟨by omega, by omega, by omega⟩, h.1, ?_, ?_, ?_⟩
  · exact ((h.2 0 (by decide)).1 (by decide)).trans (by decide)
  · refine (((h.2 1 (by decide)).2.1
      (pyStrip "POST_2: Nice product || SENTIMENT: positive".toList) (by decide))).trans ?_
    decide
  · exact ((h.2 2 (by decide)).1 (by decide)).trans (by decide)

/-! ### `categorize_batch` — response parsing (source lines 406–428)

```
lines = result.split('\n')
for i in range(len(posts)):
    post_line = None
    for line in lines:
        if f"POST_{i+1}:" in line:
            post_line = line
            break
    if post_line:
        try:
            cat_num = int(post_line.split(':')[1].strip())
            if 1 <= cat_num <= len(categories):
                category_assignments.append(categories[cat_num - 1])
            else:
                category_assignments.append("Uncategorized")
        except:
            category_assignments.append("Uncategorized")
    else:
        category_assignments.append("Uncategorized")
```
-/

def catPostLine (lines : List (List Char)) (i : Nat) : Option (List Char) :=
  lines.find? fun line => pyIn (postTag (i + 1)) line

def catLineNum (pl : List Char) : Option Int :=
  (pySplitColonGet1 pl).bind fun seg => pyIntOfChars (pyStrip seg)

def categorize_batch_parse (num_posts : Nat) (categories : List (List Char))
    (result : List Char) : List (List Char) :=
  (List.range num_posts).map fun i =>
    (catPostLine (splitOnChar '\n' result) i).elim "Uncategorized".toList fun pl =>
      (catLineNum pl).elim "Uncategorized".toList fun cat_num =>
        if 1 ≤ cat_num ∧ cat_num ≤ (categories.length : Int) then
          categories.getD (cat_num - 1).toNat []
        else "Uncategorized".toList

theorem categorize_batch_parse_getD (num_posts : Nat) (categories : List (List Char))
    (result : List Char) (i : Nat) (hi : i < num_posts) :
    (categorize_batch_parse num_posts categories result).getD i [] =
      (catPostLine (splitOnChar '\n' result) i).elim "Uncategorized".toList (fun pl =>
        (catLineNum pl).elim "Uncategorized".toList fun cat_num =>
          if 1 ≤ cat_num ∧ cat_num ≤ (categories.length : Int) then
            categories.getD (cat_num - 1).toNat []
          else "Uncategorized".toList) := by
  unfold categorize_batch_parse
  rw [List.getD_eq_getElem?_getD, List.getElem?_map, List.getElem?_range hi]
  rfl

/-- C7: the categorization batch parser assigns the sentinel
`Uncategorized` to every record whose response line is missing,
unparseable, or names a category number outside `1..len(categories)`
(so an oracle index of `0` or of `len(categories) + 1` maps to
`Uncategorized`, never to a real category shifted by one); a number in
range selects `categories[cat_num - 1]`. -/
theorem categorize_batch_parse_out_of_range (num_posts : Nat)
    (categories : List (List Char)) (result : List Char) :
    ∀ i, i < num_posts →
      (catPostLine (splitOnChar '\n' result) i = none →
        (categorize_batch_parse num_posts categories result).getD i [] =
          "Uncategorized".toList) ∧
      (∀ pl, catPostLine (splitOnChar '\n' result) i = some pl →
        (catLineNum pl = none →
          (categorize_batch_parse num_posts categories result).getD i [] =
            "Uncategorized".toList) ∧
        (∀ n, catLineNum pl = some n → ¬ (1 ≤ n ∧ n ≤ (categories.length : Int)) →
          (categorize_batch_parse num_posts categories result).getD i [] =
            "Uncategorized".toList) ∧
        (∀ n, catLineNum pl = some n → 1 ≤ n ∧ n ≤ (categories.length : Int) →
          (categorize_batch_parse num_posts categories result).getD i [] =
            categories.getD (n - 1).toNat [])) := by
  intro i hi
  have hg := categorize_batch_parse_getD num_posts categories result i hi
  refine ⟨fun hnone => by rw [hg, hnone]; rfl, ?_⟩
  intro pl hsome
  refine ⟨fun hnum => by rw [hg, hsome]; simp only [Option.elim_some]; rw [hnum]; rfl, ?_, ?_⟩
  · intro n hn hout
    rw [hg, hsome]
    simp only [Option.elim_some]
    rw [hn]
    simp only [Option.elim_some]
    rw [if_neg hout]
  · intro n hn hin
    rw [hg, hsome]
    simp only [Option.elim_some]
    rw [hn]
    simp only [Option.elim_some]
    rw [if_pos hin]

def c7Cats : List (List Char) :=
  ["catA".toList, "catB".toList, "catC".toList, "catD".toList]

def c7Result : List Char := "POST_1: 0\nPOST_2: 5".toList

/-- Witness for C7: with 4 categories, an oracle-returned index of `0`
(record 1) and of `len(categories) + 1 = 5` (record 2) both map to
`Uncategorized`. -/
theorem categorize_batch_parse_out_of_range_witness :
    ((0 : Nat) < 2 ∧ (1 : Nat) < 2 ∧
      catLineNum "POST_1: 0".toList = some 0 ∧
      catLineNum "POST_2: 5".toList = some 5) ∧
    (categorize_batch_parse 2 c7Cats c7Result).getD 0 [] = "Uncategorized".toList ∧
    (categorize_batch_parse 2 c7Cats c7Result).getD 1 [] = "Uncategorized".toList := by
  have h0 := (categorize_batch_parse_out_of_range 2 c7Cats c7Result 0 (by decide)).2
    "POST_1: 0".toList (by decide)
  have h1 := (categorize_batch_parse_out_of_range 2 c7Cats c7Result 1 (by decide)).2
    "POST_2: 5".toList (by decide)
  refine ⟨⟨by omega, by omega, by decide, by decide⟩, ?_, ?_⟩
  · exact h0.2.1 0 (by decide) (by decide)
  · exact h1.2.1 5 (by decide) (by decide)

/-! ### Clustering engine — data model

A category's cluster map is a Python `dict` mapping integer cluster ids
to lists of record indices.  All maps here are built by
`_cluster_initial_sample`, which inserts keys `0, 1, 2, ...` in order,
and are only extended at existing keys afterwards, so the insertion-
ordered `dict` is modelled as an association list. -/

abbrev ClusterMap := List (Nat × List Int)

def cmKeys (cm : ClusterMap) : List Nat := cm.map Prod.fst

def flatMembers (cm : ClusterMap) : List Int := (cm.map Prod.snd).flatten

/-- Total number of occurrences of index `v` across all member lists. -/
def countIdx (cm : ClusterMap) (v : Int) : Nat := (cm.map fun p => p.2.count v).sum

/-- Python `max(clusters.keys(), key=lambda k: len(clusters[k]))` over an
insertion-ordered dict: the first key (in insertion order) whose member
list has maximal length; replacement only on strictly greater length. -/
def argmaxKeyAux : Nat → Nat → List (Nat × List Int) → Nat
  | bk, _, [] => bk
  | bk, bl, p :: ps =>
    if bl < p.2.length then argmaxKeyAux p.1 p.2.length ps else argmaxKeyAux bk bl ps

def argmaxKey : ClusterMap → Nat
  | [] => 0
  | p :: ps => argmaxKeyAux p.1 p.2.length ps

/-- `clusters[k].extend(xs)` / `clusters[k].append(x)`. -/
def dictExtend (cm : ClusterMap) (k : Nat) (xs : List Int) : ClusterMap :=
  cm.map fun p => if p.1 = k then (p.1, p.2 ++ xs) else p

/-! ### `_cluster_initial_sample` — direct clustering (source lines 472–556)

```
clusters = {}
seen_indices = set()
next_cluster_id = 0
for indices in clusters_array:
    valid_indices = [i for i in indices if 0 <= i < num_posts and i not in seen_indices]
    if len(valid_indices) >= min_cluster_size:
        clusters[next_cluster_id] = valid_indices
        seen_indices.update(valid_indices)
        next_cluster_id += 1
missing_indices = [i for i in range(num_posts) if i not in seen_indices]
if missing_indices:
    if clusters:
        largest_cluster = max(clusters.keys(), key=lambda k: len(clusters[k]))
        clusters[largest_cluster].extend(missing_indices)
    else:
        clusters[0] = list(range(num_posts))
return clusters if clusters else {0: list(range(num_posts))}
```
`clusters_array` is the result of `json.loads` on the (fence-stripped)
oracle reply; a reply that fails to parse, or whose parse is not a list
of sequences of numbers, raises before any state escapes and is covered
by the `Except.error` case of the caller.  JSON numeric elements are
modelled as integers: an integral number behaves exactly like its
integer value here, and a non-integral number is equal to no record
index, so it never touches the per-index bookkeeping stated below (it
can only pad a proposed cluster's length). -/

structure VState where
  clusters : ClusterMap
  seen : List Int
  next_id : Nat

def validOf (num_posts : Nat) (seen : List Int) (indices : List Int) : List Int :=
  indices.filter fun i => decide (0 ≤ i ∧ i < (num_posts : Int) ∧ i ∉ seen)

def clusterStep (num_posts mcs : Nat) (st : VState) (indices : List Int) : VState :=
  if mcs ≤ (validOf num_posts st.seen indices).length then
    ⟨st.clusters ++ [(st.next_id, validOf num_posts st.seen indices)],
      st.seen ++ validOf num_posts st.seen indices, st.next_id + 1⟩
  else st

def clusterValidate (num_posts mcs : Nat) (arrays : List (List Int)) : VState :=
  arrays.foldl (clusterStep num_posts mcs) ⟨[], [], 0⟩

def rangeInt (n : Nat) : List Int := (List.range n).map fun (j : Nat) => (j : Int)

def missingOf (num_posts : Nat) (seen : List Int) : List Int :=
  ((List.range num_posts).filter fun (j : Nat) => decide ((j : Int) ∉ seen)).map
    fun (j : Nat) => (j : Int)

/-- The `clusters` dict right after the `if missing_indices:` block. -/
def initialClusters (num_posts mcs : Nat) (arrays : List (List Int)) : ClusterMap :=
  if (missingOf num_posts (clusterValidate num_posts mcs arrays).seen).isEmpty then
    (clusterValidate num_posts mcs arrays).clusters
  else if (clusterValidate num_posts mcs arrays).clusters.isEmpty then
    [(0, rangeInt num_posts)]
  else
    dictExtend (clusterValidate num_posts mcs arrays).clusters
      (argmaxKey (clusterValidate num_posts mcs arrays).clusters)
      (missingOf num_posts (clusterValidate num_posts mcs arrays).seen)

/-- `return clusters if clusters else {0: list(range(num_posts))}`. -/
def cluster_initial_sample (num_posts mcs : Nat) (arrays : List (List Int)) : ClusterMap :=
  if (initialClusters num_posts mcs arrays).isEmpty then [(0, rangeInt num_posts)]
  else initialClusters num_posts mcs arrays

/-! ### `_assign_posts_to_clusters` — phase 3 (source lines 609–712)

```
for i in range(0, num_posts, batch_size):
    batch = posts[i:i+batch_size]
    batch_start = start_idx + i
    try:
        result = safe_llm_call(call)
        lines = result.split('\n')
        for j, p in enumerate(batch):
            post_idx = batch_start + j
            assigned = False
            for line in lines:
                if f"POST_{post_idx}:" in line:
                    try:
                        cluster_num = int(line.split(':')[1].strip())
                        if cluster_num in clusters:
                            clusters[cluster_num].append(post_idx)
                            assigned = True
                            break
                    except:
                        continue
            if not assigned:
                largest = max(clusters.keys(), key=lambda k: len(clusters[k]))
                clusters[largest].append(post_idx)
    except Exception as e:
        largest = max(clusters.keys(), key=lambda k: len(clusters[k]))
        for j in range(len(batch)):
            clusters[largest].append(batch_start + j)
```
-/

def hasKeyInt (cm : ClusterMap) (n : Int) : Bool := cm.any fun p => (p.1 : Int) == n

/-- The scan over response lines for record `post_idx`: first line
containing the tag whose parsed number is a known cluster id; lines with
the tag but an unparseable number (`except: continue`) or an unknown id
(no `break`) are skipped. -/
def findAssign (lines : List (List Char)) (post_idx : Nat) (cm : ClusterMap) : Option Nat :=
  match lines with
  | [] => none
  | line :: rest =>
    if pyIn (postTag post_idx) line then
      match catLineNum line with
      | some n => if hasKeyInt cm n then some n.toNat else findAssign rest post_idx cm
      | none => findAssign rest post_idx cm
    else findAssign rest post_idx cm

def assignOne (lines : List (List Char)) (post_idx : Nat) (cm : ClusterMap) : ClusterMap :=
  match findAssign lines post_idx cm with
  | some k => dictExtend cm k [(post_idx : Int)]
  | none => dictExtend cm (argmaxKey cm) [(post_idx : Int)]

def assignBatch (cm : ClusterMap) (outcome : Except Unit (List Char))
    (batch_start batch_len : Nat) : ClusterMap :=
  match outcome with
  | .error _ =>
    (List.range batch_len).foldl
      (fun c j => dictExtend c (argmaxKey cm) [((batch_start + j : Nat) : Int)]) cm
  | .ok result =>
    (List.range batch_len).foldl
      (fun c j => assignOne (splitOnChar '\n' result) (batch_start + j) c) cm

def assignLoop (resp : Nat → Except Unit (List Char)) (cm : ClusterMap)
    (t batch_start remaining : Nat) : ClusterMap :=
  if remaining = 0 then cm
  else
    assignLoop resp (assignBatch cm (resp t) batch_start (min 30 remaining)) (t + 1)
      (batch_start + min 30 remaining) (remaining - min 30 remaining)
termination_by remaining
decreasing_by omega

/-! ### `llm_cluster_posts` (source lines 715–779)

The oracle trace carries, per category run: the outcome of the one
direct-clustering call (phase 1 / small-category call), whether each
phase-2 theme-extraction call succeeds (its text only feeds later
prompts), and the raw text (or failure) of each phase-3 sub-batch call. -/

structure OracleTrace where
  clusterResp : Except Unit (List (List Int))
  themeOk : Nat → Bool
  assignResp : Nat → Except Unit (List Char)

def INITIAL_SAMPLE_SIZE : Nat := 100

def llm_cluster_posts (num_posts mcs : Nat) (o : OracleTrace) : ClusterMap :=
  if num_posts ≤ INITIAL_SAMPLE_SIZE then
    match o.clusterResp with
    | .ok arrays => cluster_initial_sample num_posts mcs arrays
    | .error _ => [(0, rangeInt num_posts)]
  else
    match o.clusterResp with
    | .error _ => [(0, rangeInt num_posts)]
    | .ok arrays =>
      if (cluster_initial_sample INITIAL_SAMPLE_SIZE mcs arrays).isEmpty then
        [(0, rangeInt num_posts)]
      else if (List.range (cluster_initial_sample INITIAL_SAMPLE_SIZE mcs arrays).length).all
          o.themeOk then
        assignLoop o.assignResp (cluster_initial_sample INITIAL_SAMPLE_SIZE mcs arrays) 0
          INITIAL_SAMPLE_SIZE (num_posts - INITIAL_SAMPLE_SIZE)
      else [(0, rangeInt num_posts)]

/-- `llm_cluster_posts` with the `if not clusters:` collapse branch of the
large-category path removed (lines 753–755); used to state that that
branch is unreachable. -/
def llm_cluster_posts_noEmptyCheck (num_posts mcs : Nat) (o : OracleTrace) : ClusterMap :=
  if num_posts ≤ INITIAL_SAMPLE_SIZE then
    match o.clusterResp with
    | .ok arrays => cluster_initial_sample num_posts mcs arrays
    | .error _ => [(0, rangeInt num_posts)]
  else
    match o.clusterResp with
    | .error _ => [(0, rangeInt num_posts)]
    | .ok arrays =>
      if (List.range (cluster_initial_sample INITIAL_SAMPLE_SIZE mcs arrays).length).all
          o.themeOk then
        assignLoop o.assignResp (cluster_initial_sample INITIAL_SAMPLE_SIZE mcs arrays) 0
          INITIAL_SAMPLE_SIZE (num_posts - INITIAL_SAMPLE_SIZE)
      else [(0, rangeInt num_posts)]

/-! ### Basic cluster-map lemmas -/

theorem cmKeys_dictExtend (cm : ClusterMap) (k : Nat) (xs : List Int) :
    cmKeys (dictExtend cm k xs) = cmKeys cm := by
  unfold cmKeys dictExtend
  rw [List.map_map]
  apply List.map_congr_left
  intro p _
  by_cases h : p.1 = k
  · simp [h]
  · simp [h]

theorem length_dictExtend (cm : ClusterMap) (k : Nat) (xs : List Int) :
    (dictExtend cm k xs).length = cm.length := by
  simp [dictExtend]

theorem dictExtend_of_not_mem (cm : ClusterMap) (k : Nat) (xs : List Int)
    (h : k ∉ cmKeys cm) : dictExtend cm k xs = cm := by
  induction cm with
  | nil => rfl
  | cons p ps ih =>
    have hne : ¬ p.1 = k := by
      intro he
      exact h (by simp [cmKeys, he])
    have hps : k ∉ cmKeys ps := by
      intro hm
      exact h (by simp [cmKeys] at hm ⊢; exact Or.inr hm)
    show (if p.1 = k then (p.1, p.2 ++ xs) else p) :: dictExtend ps k xs = p :: ps
    rw [if_neg hne, ih hps]

theorem countIdx_nil (v : Int) : countIdx [] v = 0 := rfl

theorem countIdx_cons (p : Nat × List Int) (cm : ClusterMap) (v : Int) :
    countIdx (p :: cm) v = p.2.count v + countIdx cm v := by
  simp [countIdx]

theorem countIdx_append (cm1 cm2 : ClusterMap) (v : Int) :
    countIdx (cm1 ++ cm2) v = countIdx cm1 v + countIdx cm2 v := by
  simp [countIdx]

theorem flatMembers_nil : flatMembers [] = [] := rfl

theorem flatMembers_cons (p : Nat × List Int) (cm : ClusterMap) :
    flatMembers (p :: cm) = p.2 ++ flatMembers cm := by
  simp [flatMembers]

theorem flatMembers_append (cm1 cm2 : ClusterMap) :
    flatMembers (cm1 ++ cm2) = flatMembers cm1 ++ flatMembers cm2 := by
  simp [flatMembers]

theorem countIdx_eq_flat (cm : ClusterMap) (v : Int) :
    countIdx cm v = (flatMembers cm).count v := by
  induction cm with
  | nil => rfl
  | cons p ps ih =>
    rw [countIdx_cons, flatMembers_cons, List.count_append, ih]

theorem countIdx_dictExtend (cm : ClusterMap) (k : Nat) (xs : List Int) (v : Int)
    (hnd : (cmKeys cm).Nodup) (hk : k ∈ cmKeys cm) :
    countIdx (dictExtend cm k xs) v = countIdx cm v + xs.count v := by
  induction cm with
  | nil => simp [cmKeys] at hk
  | cons p ps ih =>
    have hnd2 : (cmKeys ps).Nodup := by
      simpa [cmKeys] using hnd.sublist (List.sublist_cons_self _ _)
    by_cases hp : p.1 = k
    · have hkps : k ∉ cmKeys ps := by
        have := hnd
        rw [cmKeys, List.map_cons, List.nodup_cons] at this
        rw [← hp]
        exact fun hm => this.1 hm
      show countIdx ((if p.1 = k then (p.1, p.2 ++ xs) else p) :: dictExtend ps k xs) v =
        countIdx (p :: ps) v + xs.count v
      rw [if_pos hp, dictExtend_of_not_mem ps k xs hkps, countIdx_cons, countIdx_cons]
      simp only [List.count_append]
      omega
    · have hkps : k ∈ cmKeys ps := by
        rw [cmKeys, List.map_cons] at hk
        rcases List.mem_cons.mp hk with h1 | h1
        · exact absurd h1.symm hp
        · exact h1
      show countIdx ((if p.1 = k then (p.1, p.2 ++ xs) else p) :: dictExtend ps k xs) v =
        countIdx (p :: ps) v + xs.count v
      rw [if_neg hp, countIdx_cons, countIdx_cons, ih hnd2 hkps]
      omega

theorem mem_flatMembers_dictExtend (cm : ClusterMap) (k : Nat) (xs : List Int) (v : Int)
    (h : v ∈ flatMembers (dictExtend cm k xs)) : v ∈ flatMembers cm ∨ v ∈ xs := by
  induction cm with
  | nil => simp [flatMembers, dictExtend] at h
  | cons p ps ih =>
    have hsh : flatMembers (dictExtend (p :: ps) k xs) =
        (if p.1 = k then (p.1, p.2 ++ xs) else p).2 ++ flatMembers (dictExtend ps k xs) := by
      show flatMembers ((if p.1 = k then (p.1, p.2 ++ xs) else p) :: dictExtend ps k xs) = _
      rw [flatMembers_cons]
    rw [hsh] at h
    rcases List.mem_append.mp h with h1 | h1
    · by_cases hp : p.1 = k
      · rw [if_pos hp] at h1
        rcases List.mem_append.mp h1 with h2 | h2
        · exact Or.inl (by rw [flatMembers_cons]; exact List.mem_append.mpr (Or.inl h2))
        · exact Or.inr h2
      · rw [if_neg hp] at h1
        exact Or.inl (by rw [flatMembers_cons]; exact List.mem_append.mpr (Or.inl h1))
    · rcases ih h1 with h2 | h2
      · exact Or.inl (by rw [flatMembers_cons]; exact List.mem_append.mpr (Or.inr h2))
      · exact Or.inr h2

theorem argmaxKeyAux_cons (bk bl : Nat) (p : Nat × List Int) (ps : List (Nat × List Int)) :
    argmaxKeyAux bk bl (p :: ps) =
      if bl < p.2.length then argmaxKeyAux p.1 p.2.length ps else argmaxKeyAux bk bl ps := rfl

theorem argmaxKeyAux_mem (ps : List (Nat × List Int)) :
    ∀ bk bl, argmaxKeyAux bk bl ps = bk ∨ argmaxKeyAux bk bl ps ∈ ps.map Prod.fst := by
  induction ps with
  | nil => intro bk bl; exact Or.inl rfl
  | cons p ps ih =>
    intro bk bl
    rw [argmaxKeyAux_cons]
    by_cases h : bl < p.2.length
    · rw [if_pos h]
      rcases ih p.1 p.2.length with h2 | h2
      · right; rw [h2, List.map_cons]; exact List.mem_cons_self _ _
      · right; rw [List.map_cons]; exact List.mem_cons_of_mem _ h2
    · rw [if_neg h]
      rcases ih bk bl with h2 | h2
      · exact Or.inl h2
      · right; rw [List.map_cons]; exact List.mem_cons_of_mem _ h2

theorem argmaxKey_mem (cm : ClusterMap) (h : cm ≠ []) : argmaxKey cm ∈ cmKeys cm := by
  cases cm with
  | nil => exact absurd rfl h
  | cons p ps =>
    show argmaxKeyAux p.1 p.2.length ps ∈ (p :: ps).map Prod.fst
    rcases argmaxKeyAux_mem ps p.1 p.2.length with h2 | h2
    · rw [h2, List.map_cons]; exact List.mem_cons_self _ _
    · rw [List.map_cons]; exact List.mem_cons_of_mem _ h2

/-- The key named by Python's `max(clusters.keys(), key=...)`: the map
splits around an entry carrying that key whose member list is strictly
longer than every earlier entry's and at least as long as every later
entry's (first maximum in insertion order). -/
def IsFirstLargest (cm : ClusterMap) (k : Nat) : Prop :=
  ∃ pre p suf, cm = pre ++ p :: suf ∧ p.1 = k ∧
    (∀ q ∈ pre, q.2.length < p.2.length) ∧ (∀ q ∈ suf, q.2.length ≤ p.2.length)

theorem argmaxKeyAux_firstLargest (ps : List (Nat × List Int)) :
    ∀ (pre0 : List (Nat × List Int)) (p0 : Nat × List Int) (mid : List (Nat × List Int)),
      (∀ q ∈ pre0, q.2.length < p0.2.length) →
      (∀ q ∈ mid, q.2.length ≤ p0.2.length) →
      IsFirstLargest (pre0 ++ p0 :: (mid ++ ps)) (argmaxKeyAux p0.1 p0.2.length ps) := by
  induction ps with
  | nil =>
    intro pre0 p0 mid h1 h2
    exact ⟨pre0, p0, mid, by simp, rfl, h1, h2⟩
  | cons q qs ih =>
    intro pre0 p0 mid h1 h2
    rw [argmaxKeyAux_cons]
    by_cases h : p0.2.length < q.2.length
    · rw [if_pos h]
      have hpre : ∀ x ∈ pre0 ++ p0 :: mid, x.2.length < q.2.length := by
        intro x hx
        rcases List.mem_append.mp hx with hx1 | hx1
        · exact lt_trans (h1 x hx1) h
        · rcases List.mem_cons.mp hx1 with hx2 | hx2
          · rw [hx2]; exact h
          · exact lt_of_le_of_lt (h2 x hx2) h
      have hthis := ih (pre0 ++ p0 :: mid) q [] hpre (by intro x hx; simp at hx)
      have heq : (pre0 ++ p0 :: mid) ++ q :: ([] ++ qs) = pre0 ++ p0 :: (mid ++ q :: qs) := by
        simp
      rw [heq] at hthis
      exact hthis
    · rw [if_neg h]
      have hmid : ∀ x ∈ mid ++ [q], x.2.length ≤ p0.2.length := by
        intro x hx
        rcases List.mem_append.mp hx with hx1 | hx1
        · exact h2 x hx1
        · rcases List.mem_cons.mp hx1 with hx2 | hx2
          · rw [hx2]; exact le_of_not_lt h
          · simp at hx2
      have hthis := ih pre0 p0 (mid ++ [q]) h1 hmid
      have heq : pre0 ++ p0 :: ((mid ++ [q]) ++ qs) = pre0 ++ p0 :: (mid ++ q :: qs) := by
        simp
      rw [heq] at hthis
      exact hthis

theorem argmaxKey_firstLargest (cm : ClusterMap) (h : cm ≠ []) :
    IsFirstLargest cm (argmaxKey cm) := by
  cases cm with
  | nil => exact absurd rfl h
  | cons p ps =>
    have hthis := argmaxKeyAux_firstLargest ps [] p [] (by intro q hq; simp at hq)
      (by intro q hq; simp at hq)
    simpa using hthis

/-! ### Validation-fold invariants -/

theorem mem_flatMembers (cm : ClusterMap) (v : Int) :
    v ∈ flatMembers cm ↔ ∃ p ∈ cm, v ∈ p.2 := by
  simp only [flatMembers, List.mem_flatten, List.mem_map]
  constructor
  · rintro ⟨l, ⟨p, hp, rfl⟩, hv⟩
    exact ⟨p, hp, hv⟩
  · rintro ⟨p, hp, hv⟩
    exact ⟨p.2, ⟨p, hp, rfl⟩, hv⟩

theorem mem_validOf (M : Nat) (seen : List Int) (a : List Int) (v : Int) :
    v ∈ validOf M seen a ↔ v ∈ a ∧ (0 ≤ v ∧ v < (M : Int) ∧ v ∉ seen) := by
  simp [validOf]

theorem mem_rangeInt (M : Nat) (v : Int) : v ∈ rangeInt M ↔ 0 ≤ v ∧ v < (M : Int) := by
  simp only [rangeInt, List.mem_map, List.mem_range]
  constructor
  · rintro ⟨a, ha, rfl⟩
    omega
  · rintro ⟨h0, hM⟩
    exact ⟨v.toNat, by omega, by omega⟩

theorem mem_missingOf (M : Nat) (seen : List Int) (v : Int) :
    v ∈ missingOf M seen ↔ 0 ≤ v ∧ v < (M : Int) ∧ v ∉ seen := by
  simp only [missingOf, List.mem_map, List.mem_filter, List.mem_range, decide_eq_true_eq]
  constructor
  · rintro ⟨j, ⟨hj, hns⟩, rfl⟩
    exact ⟨by omega, by omega, hns⟩
  · rintro ⟨h0, hM, hns⟩
    refine ⟨v.toNat, ⟨by omega, ?_⟩, by omega⟩
    have hv : (v.toNat : Int) = v := by omega
    rw [hv]
    exact hns

theorem rangeInt_nodup (M : Nat) : (rangeInt M).Nodup :=
  List.Nodup.map (fun a b h => by omega) (List.nodup_range M)

theorem missingOf_nodup (M : Nat) (seen : List Int) : (missingOf M seen).Nodup :=
  List.Nodup.map (fun a b h => by omega) (List.Nodup.filter _ (List.nodup_range M))

theorem rangeInt_count (M j : Nat) (hj : j < M) : (rangeInt M).count (j : Int) = 1 :=
  List.count_eq_one_of_mem (rangeInt_nodup M) ((mem_rangeInt M _).mpr ⟨by omega, by omega⟩)

/-- Invariants of the `for indices in clusters_array` validation fold. -/
def VInv (M : Nat) (st : VState) : Prop :=
  st.seen = flatMembers st.clusters ∧
  (∀ v ∈ st.seen, 0 ≤ v ∧ v < (M : Int)) ∧
  cmKeys st.clusters = List.range st.clusters.length ∧
  st.next_id = st.clusters.length ∧
  List.Pairwise (fun p q => ∀ d ∈ p.2, d ∉ q.2) st.clusters

theorem clusterStep_inv (M mcs : Nat) (st : VState) (a : List Int) (h : VInv M st) :
    VInv M (clusterStep M mcs st a) := by
  obtain ⟨hseen, hbound, hkeys, hnext, hpw⟩ := h
  unfold clusterStep
  split
  next hc =>
    refine ⟨?_, ?_, ?_, ?_, ?_⟩
    · show st.seen ++ validOf M st.seen a = flatMembers (st.clusters ++ [(st.next_id, validOf M st.seen a)])
      rw [flatMembers_append, hseen]
      simp [flatMembers]
    · intro v hv
      rcases List.mem_append.mp hv with h1 | h1
      · exact hbound v h1
      · have := (mem_validOf M st.seen a v).mp h1
        exact ⟨this.2.1, this.2.2.1⟩
    · show cmKeys (st.clusters ++ [(st.next_id, validOf M st.seen a)]) = _
      unfold cmKeys
      rw [List.map_append, List.length_append]
      show List.map Prod.fst st.clusters ++ [st.next_id] = _
      rw [show List.map Prod.fst st.clusters = cmKeys st.clusters from rfl, hkeys, hnext]
      simp [List.range_succ]
    · simp [hnext]
    · rw [List.pairwise_append]
      refine ⟨hpw, List.pairwise_singleton _ _, ?_⟩
      intro p hp x hx d hd
      rcases List.mem_cons.mp hx with hx1 | hx1
      · rw [hx1]
        intro hdv
        have : d ∉ st.seen := ((mem_validOf M st.seen a d).mp hdv).2.2.2
        exact this (by rw [hseen]; exact (mem_flatMembers _ _).mpr ⟨p, hp, hd⟩)
      · simp at hx1
  next hc =>
    exact ⟨hseen, hbound, hkeys, hnext, hpw⟩

theorem foldl_preserves {σ α : Type} (P : σ → Prop) (f : σ → α → σ)
    (hf : ∀ s a, P s → P (f s a)) : ∀ (l : List α) (s : σ), P s → P (l.foldl f s) := by
  intro l
  induction l with
  | nil => intro s h; exact h
  | cons a l ih => intro s h; exact ih (f s a) (hf s a h)

theorem clusterValidate_inv (M mcs : Nat) (arrays : List (List Int)) :
    VInv M (clusterValidate M mcs arrays) := by
  unfold clusterValidate
  apply foldl_preserves (VInv M) (clusterStep M mcs) (fun s a => clusterStep_inv M mcs s a)
  exact ⟨rfl, by intro v hv; simp at hv, rfl, rfl, List.Pairwise.nil⟩

theorem clusterValidate_seen_nodup (M mcs : Nat) (arrays : List (List Int))
    (hnd : ∀ a ∈ arrays, a.Nodup) : (clusterValidate M mcs arrays).seen.Nodup := by
  unfold clusterValidate
  have key : ∀ (l : List (List Int)) (st : VState), (∀ a ∈ l, a.Nodup) → st.seen.Nodup →
      (l.foldl (clusterStep M mcs) st).seen.Nodup := by
    intro l
    induction l with
    | nil => intro st _ h; exact h
    | cons a l ih =>
      intro st hl hst
      apply ih _ (fun b hb => hl b (List.mem_cons_of_mem _ hb))
      unfold clusterStep
      split
      next hc =>
        show (st.seen ++ validOf M st.seen a).Nodup
        refine List.Nodup.append hst ((hl a (List.mem_cons_self _ _)).filter _) ?_
        intro x hx hxv
        exact ((mem_validOf M st.seen a x).mp hxv).2.2.2 hx
      next hc => exact hst
  exact key arrays ⟨[], [], 0⟩ hnd List.nodup_nil

/-! ### `cluster_initial_sample` case analysis and properties -/

theorem cluster_initial_sample_of_empty {M mcs : Nat} {arrays : List (List Int)}
    (h : (clusterValidate M mcs arrays).clusters = []) :
    cluster_initial_sample M mcs arrays = [(0, rangeInt M)] := by
  unfold cluster_initial_sample initialClusters
  rw [h]
  by_cases hm : (missingOf M (clusterValidate M mcs arrays).seen).isEmpty <;> simp [hm]

theorem cluster_initial_sample_of_missing_empty {M mcs : Nat} {arrays : List (List Int)}
    (hc : (clusterValidate M mcs arrays).clusters ≠ [])
    (hm : missingOf M (clusterValidate M mcs arrays).seen = []) :
    cluster_initial_sample M mcs arrays = (clusterValidate M mcs arrays).clusters := by
  unfold cluster_initial_sample initialClusters
  rw [hm]
  simp [List.isEmpty_iff, hc]

theorem cluster_initial_sample_of_missing_nonempty {M mcs : Nat} {arrays : List (List Int)}
    (hc : (clusterValidate M mcs arrays).clusters ≠ [])
    (hm : missingOf M (clusterValidate M mcs arrays).seen ≠ []) :
    cluster_initial_sample M mcs arrays =
      dictExtend (clusterValidate M mcs arrays).clusters
        (argmaxKey (clusterValidate M mcs arrays).clusters)
        (missingOf M (clusterValidate M mcs arrays).seen) := by
  have hne : dictExtend (clusterValidate M mcs arrays).clusters
      (argmaxKey (clusterValidate M mcs arrays).clusters)
      (missingOf M (clusterValidate M mcs arrays).seen) ≠ [] := by
    intro h0
    apply hc
    have hlen := length_dictExtend (clusterValidate M mcs arrays).clusters
      (argmaxKey (clusterValidate M mcs arrays).clusters)
      (missingOf M (clusterValidate M mcs arrays).seen)
    rw [h0] at hlen
    exact List.length_eq_zero.mp hlen.symm
  unfold cluster_initial_sample initialClusters
  simp [List.isEmpty_iff, hc, hm, hne]

theorem cluster_initial_sample_ne_nil (M mcs : Nat) (arrays : List (List Int)) :
    cluster_initial_sample M mcs arrays ≠ [] := by
  unfold cluster_initial_sample
  by_cases h : (initialClusters M mcs arrays).isEmpty
  · rw [if_pos h]
    simp
  · rw [if_neg h]
    intro he
    exact h (by rw [he]; rfl)

theorem cluster_initial_sample_keys (M mcs : Nat) (arrays : List (List Int)) :
    cmKeys (cluster_initial_sample M mcs arrays) =
      List.range (cluster_initial_sample M mcs arrays).length := by
  have hV := clusterValidate_inv M mcs arrays
  by_cases hc : (clusterValidate M mcs arrays).clusters = []
  · rw [cluster_initial_sample_of_empty hc]
    simp [cmKeys, List.range_succ]
  · by_cases hm : missingOf M (clusterValidate M mcs arrays).seen = []
    · rw [cluster_initial_sample_of_missing_empty hc hm]
      exact hV.2.2.1
    · rw [cluster_initial_sample_of_missing_nonempty hc hm, cmKeys_dictExtend, length_dictExtend]
      exact hV.2.2.1

theorem cluster_initial_sample_bounds (M mcs : Nat) (arrays : List (List Int)) :
    ∀ v ∈ flatMembers (cluster_initial_sample M mcs arrays), 0 ≤ v ∧ v < (M : Int) := by
  obtain ⟨hseen, hbound, hkeys, hnext, hpw⟩ := clusterValidate_inv M mcs arrays
  intro v hv
  by_cases hc : (clusterValidate M mcs arrays).clusters = []
  · rw [cluster_initial_sample_of_empty hc] at hv
    have hvr : v ∈ rangeInt M := by simpa [flatMembers] using hv
    exact (mem_rangeInt M v).mp hvr
  · by_cases hm : missingOf M (clusterValidate M mcs arrays).seen = []
    · rw [cluster_initial_sample_of_missing_empty hc hm] at hv
      rw [← hseen] at hv
      exact hbound v hv
    · rw [cluster_initial_sample_of_missing_nonempty hc hm] at hv
      rcases mem_flatMembers_dictExtend _ _ _ _ hv with h1 | h1
      · rw [← hseen] at h1
        exact hbound v h1
      · have := (mem_missingOf M _ v).mp h1
        exact ⟨this.1, this.2.1⟩

/-- C1 (amended) core, direct path: when every inner array of the parsed
response is duplicate-free, every index `j < M` occurs exactly once in
the member lists of the validated cluster map. -/
theorem cluster_initial_sample_partition (M mcs : Nat) (arrays : List (List Int))
    (hnd : ∀ a ∈ arrays, a.Nodup) :
    ∀ j, j < M → countIdx (cluster_initial_sample M mcs arrays) (j : Int) = 1 := by
  intro j hj
  obtain ⟨hseen, hbound, hkeys, hnext, hpw⟩ := clusterValidate_inv M mcs arrays
  have hsnd := clusterValidate_seen_nodup M mcs arrays hnd
  have hcount : countIdx (clusterValidate M mcs arrays).clusters (j : Int) =
      (clusterValidate M mcs arrays).seen.count (j : Int) := by
    rw [countIdx_eq_flat, ← hseen]
  have hknd : (cmKeys (clusterValidate M mcs arrays).clusters).Nodup := by
    rw [hkeys]
    exact List.nodup_range _
  by_cases hc : (clusterValidate M mcs arrays).clusters = []
  · rw [cluster_initial_sample_of_empty hc, countIdx_cons, countIdx_nil]
    show (rangeInt M).count (j : Int) + 0 = 1
    rw [rangeInt_count M j hj]
  · by_cases hjm : (j : Int) ∈ (clusterValidate M mcs arrays).seen
    · have h1 : countIdx (clusterValidate M mcs arrays).clusters (j : Int) = 1 := by
        rw [hcount]
        exact List.count_eq_one_of_mem hsnd hjm
      by_cases hm : missingOf M (clusterValidate M mcs arrays).seen = []
      · rw [cluster_initial_sample_of_missing_empty hc hm]
        exact h1
      · rw [cluster_initial_sample_of_missing_nonempty hc hm,
          countIdx_dictExtend _ _ _ _ hknd (argmaxKey_mem _ hc), h1]
        have hmc : (missingOf M (clusterValidate M mcs arrays).seen).count (j : Int) = 0 :=
          List.count_eq_zero_of_not_mem
            (fun hmm => ((mem_missingOf M _ _).mp hmm).2.2 hjm)
        rw [hmc]
    · have h0 : countIdx (clusterValidate M mcs arrays).clusters (j : Int) = 0 := by
        rw [hcount]
        exact List.count_eq_zero_of_not_mem hjm
      have hjmm : (j : Int) ∈ missingOf M (clusterValidate M mcs arrays).seen :=
        (mem_missingOf M _ _).mpr ⟨by omega, by omega, hjm⟩
      have hm : missingOf M (clusterValidate M mcs arrays).seen ≠ [] := by
        intro h
        rw [h] at hjmm
        exact absurd hjmm (List.not_mem_nil _)
      rw [cluster_initial_sample_of_missing_nonempty hc hm,
        countIdx_dictExtend _ _ _ _ hknd (argmaxKey_mem _ hc), h0]
      rw [List.count_eq_one_of_mem (missingOf_nodup M _) hjmm]

/-! ### Exactly-one-containing-cluster (no duplicate-freedom needed) -/

theorem countP_mem_of_pairwise (cm : ClusterMap) (v : Int)
    (hpw : List.Pairwise (fun p q => ∀ d ∈ p.2, d ∉ q.2) cm) :
    cm.countP (fun p => decide (v ∈ p.2)) = if v ∈ flatMembers cm then 1 else 0 := by
  induction cm with
  | nil => simp [flatMembers]
  | cons p ps ih =>
    have hdisj := (List.pairwise_cons.mp hpw).1
    have htail := (List.pairwise_cons.mp hpw).2
    rw [List.countP_cons, ih htail]
    by_cases hv : v ∈ p.2
    · have hnot : v ∉ flatMembers ps := by
        intro hmem
        obtain ⟨q, hq, hvq⟩ := (mem_flatMembers ps v).mp hmem
        exact hdisj q hq v hv hvq
      rw [if_neg hnot]
      have hmem2 : v ∈ flatMembers (p :: ps) := by
        rw [flatMembers_cons]
        exact List.mem_append.mpr (Or.inl hv)
      rw [if_pos hmem2]
      simp [hv]
    · by_cases hf : v ∈ flatMembers ps
      · rw [if_pos hf]
        have hmem2 : v ∈ flatMembers (p :: ps) := by
          rw [flatMembers_cons]
          exact List.mem_append.mpr (Or.inr hf)
        rw [if_pos hmem2]
        simp [hv]
      · rw [if_neg hf]
        have hmem2 : v ∉ flatMembers (p :: ps) := by
          rw [flatMembers_cons]
          intro hx
          rcases List.mem_append.mp hx with h1 | h1
          · exact hv h1
          · exact hf h1
        rw [if_neg hmem2]
        simp [hv]

theorem countP_dictExtend_of_not_mem_xs (cm : ClusterMap) (k : Nat) (xs : List Int)
    (v : Int) (hv : v ∉ xs) :
    (dictExtend cm k xs).countP (fun p => decide (v ∈ p.2)) =
      cm.countP (fun p => decide (v ∈ p.2)) := by
  induction cm with
  | nil => rfl
  | cons p ps ih =>
    show List.countP _ ((if p.1 = k then (p.1, p.2 ++ xs) else p) :: dictExtend ps k xs) = _
    rw [List.countP_cons, List.countP_cons, ih]
    by_cases hp : p.1 = k
    · simp [hp, hv]
    · simp [hp]

theorem countP_dictExtend_fresh (cm : ClusterMap) (k : Nat) (xs : List Int) (v : Int)
    (hall : ∀ p ∈ cm, v ∉ p.2) (hvx : v ∈ xs) (hnd : (cmKeys cm).Nodup)
    (hk : k ∈ cmKeys cm) :
    (dictExtend cm k xs).countP (fun p => decide (v ∈ p.2)) = 1 := by
  induction cm with
  | nil => simp [cmKeys] at hk
  | cons p ps ih =>
    have hnd2 : (cmKeys ps).Nodup := by
      simpa [cmKeys] using hnd.sublist (List.sublist_cons_self _ _)
    show List.countP _ ((if p.1 = k then (p.1, p.2 ++ xs) else p) :: dictExtend ps k xs) = 1
    by_cases hp : p.1 = k
    · have hkps : k ∉ cmKeys ps := by
        have h2 := hnd
        rw [cmKeys, List.map_cons, List.nodup_cons] at h2
        rw [← hp]
        exact fun hmm => h2.1 hmm
      rw [if_pos hp, dictExtend_of_not_mem ps k xs hkps, List.countP_cons]
      have hhead : v ∈ p.2 ++ xs := List.mem_append.mpr (Or.inr hvx)
      have htail : List.countP (fun p => decide (v ∈ p.2)) ps = 0 :=
        List.countP_eq_zero.mpr (fun q hq => by
          simp only [decide_eq_true_eq]
          exact hall q (List.mem_cons_of_mem _ hq))
      rw [htail]
      simp [hhead]
    · have hkps : k ∈ cmKeys ps := by
        rw [cmKeys, List.map_cons] at hk
        rcases List.mem_cons.mp hk with h1 | h1
        · exact absurd h1.symm hp
        · exact h1
      rw [if_neg hp, List.countP_cons]
      have hhead : v ∉ p.2 := hall p (List.mem_cons_self _ _)
      rw [ih (fun q hq => hall q (List.mem_cons_of_mem _ hq)) hnd2 hkps]
      simp [hhead]

/-- Every valid index belongs to exactly one cluster of the direct-
clustering result, for every parsed response (duplicates within one
array stay inside a single cluster, so no duplicate-freedom hypothesis
is needed here). -/
theorem cluster_initial_sample_unique_cluster (M mcs : Nat) (arrays : List (List Int)) :
    ∀ j, j < M →
      (cluster_initial_sample M mcs arrays).countP
        (fun p => decide ((j : Int) ∈ p.2)) = 1 := by
  intro j hj
  obtain ⟨hseen, hbound, hkeys, hnext, hpw⟩ := clusterValidate_inv M mcs arrays
  have hknd : (cmKeys (clusterValidate M mcs arrays).clusters).Nodup := by
    rw [hkeys]
    exact List.nodup_range _
  by_cases hc : (clusterValidate M mcs arrays).clusters = []
  · rw [cluster_initial_sample_of_empty hc]
    have : (j : Int) ∈ rangeInt M := (mem_rangeInt M _).mpr ⟨by omega, by omega⟩
    simp [List.countP_cons, this]
  · by_cases hjm : (j : Int) ∈ (clusterValidate M mcs arrays).seen
    · have hflat : (j : Int) ∈ flatMembers (clusterValidate M mcs arrays).clusters := by
        rw [← hseen]
        exact hjm
      by_cases hm : missingOf M (clusterValidate M mcs arrays).seen = []
      · rw [cluster_initial_sample_of_missing_empty hc hm, countP_mem_of_pairwise _ _ hpw,
          if_pos hflat]
      · rw [cluster_initial_sample_of_missing_nonempty hc hm,
          countP_dictExtend_of_not_mem_xs _ _ _ _
            (fun hmm => ((mem_missingOf M _ _).mp hmm).2.2 hjm),
          countP_mem_of_pairwise _ _ hpw, if_pos hflat]
    · have hjmm : (j : Int) ∈ missingOf M (clusterValidate M mcs arrays).seen :=
        (mem_missingOf M _ _).mpr ⟨by omega, by omega, hjm⟩
      have hm : missingOf M (clusterValidate M mcs arrays).seen ≠ [] := by
        intro h
        rw [h] at hjmm
        exact absurd hjmm (List.not_mem_nil _)
      have hall : ∀ p ∈ (clusterValidate M mcs arrays).clusters, (j : Int) ∉ p.2 := by
        intro p hp hmem
        exact hjm (by rw [hseen]; exact (mem_flatMembers _ _).mpr ⟨p, hp, hmem⟩)
      rw [cluster_initial_sample_of_missing_nonempty hc hm]
      exact countP_dictExtend_fresh _ _ _ _ hall hjmm hknd (argmaxKey_mem _ hc)

/-! ### Phase-3 bookkeeping lemmas -/

theorem findAssign_cons (line : List Char) (rest : List (List Char)) (r : Nat)
    (cm : ClusterMap) :
    findAssign (line :: rest) r cm =
      if pyIn (postTag r) line then
        match catLineNum line with
        | some n => if hasKeyInt cm n then some n.toNat else findAssign rest r cm
        | none => findAssign rest r cm
      else findAssign rest r cm := rfl

theorem findAssign_mem (lines : List (List Char)) (r : Nat) (cm : ClusterMap) :
    ∀ k, findAssign lines r cm = some k → k ∈ cmKeys cm := by
  induction lines with
  | nil => intro k h; simp [findAssign] at h
  | cons line rest ih =>
    intro k h
    rw [findAssign_cons] at h
    split at h
    · split at h
      next n heq =>
        split at h
        next hk =>
          injection h with h2
          unfold hasKeyInt at hk
          rw [List.any_eq_true] at hk
          obtain ⟨p, hp, hpn⟩ := hk
          have hpeq : (p.1 : Int) = n := by simpa using hpn
          have hkn : n.toNat = p.1 := by omega
          rw [← h2, hkn]
          exact List.mem_map_of_mem Prod.fst hp
        next hk => exact ih k h
      next heq => exact ih k h
    · exact ih k h

theorem cmKeys_assignOne (lines : List (List Char)) (r : Nat) (cm : ClusterMap) :
    cmKeys (assignOne lines r cm) = cmKeys cm := by
  unfold assignOne
  split <;> rw [cmKeys_dictExtend]

theorem foldl_cmKeys_preserved {β : Type} (f : ClusterMap → β → ClusterMap)
    (hf : ∀ c b, cmKeys (f c b) = cmKeys c) :
    ∀ (L : List β) (c : ClusterMap), cmKeys (L.foldl f c) = cmKeys c := by
  intro L
  induction L with
  | nil => intro c; rfl
  | cons b L ih => intro c; rw [List.foldl_cons, ih, hf]

theorem cmKeys_assignBatch (cm : ClusterMap) (oc : Except Unit (List Char))
    (bs bl : Nat) : cmKeys (assignBatch cm oc bs bl) = cmKeys cm := by
  unfold assignBatch
  split
  · exact foldl_cmKeys_preserved _ (fun c b => cmKeys_dictExtend c _ _) _ cm
  · exact foldl_cmKeys_preserved _ (fun c b => cmKeys_assignOne _ _ c) _ cm

theorem cmKeys_assignLoop (resp : Nat → Except Unit (List Char)) :
    ∀ n rem cm t bs, rem ≤ n → cmKeys (assignLoop resp cm t bs rem) = cmKeys cm := by
  intro n
  induction n with
  | zero =>
    intro rem cm t bs h
    have h0 : rem = 0 := by omega
    subst h0
    rw [assignLoop]
    simp
  | succ n ih =>
    intro rem cm t bs h
    rw [assignLoop]
    by_cases h0 : rem = 0
    · rw [if_pos h0]
    · rw [if_neg h0]
      rw [ih _ _ _ _ (by omega), cmKeys_assignBatch]

theorem dictExtend_dictExtend (cm : ClusterMap) (k : Nat) (xs ys : List Int) :
    dictExtend (dictExtend cm k xs) k ys = dictExtend cm k (xs ++ ys) := by
  unfold dictExtend
  rw [List.map_map]
  apply List.map_congr_left
  intro p _
  by_cases hp : p.1 = k
  · simp [hp]
  · simp [hp]

theorem dictExtend_nil_xs (c : ClusterMap) (k : Nat) : dictExtend c k [] = c := by
  induction c with
  | nil => rfl
  | cons p ps ih =>
    show (if p.1 = k then (p.1, p.2 ++ []) else p) :: dictExtend ps k [] = p :: ps
    rw [ih]
    by_cases hp : p.1 = k
    · rw [if_pos hp, List.append_nil]
    · rw [if_neg hp]

theorem foldl_dictExtend_collapse (k : Nat) (g : Nat → Int) :
    ∀ (L : List Nat) (c : ClusterMap),
      L.foldl (fun c j => dictExtend c k [g j]) c = dictExtend c k (L.map g) := by
  intro L
  induction L with
  | nil =>
    intro c
    exact (dictExtend_nil_xs c k).symm
  | cons j L ih =>
    intro c
    rw [List.foldl_cons, ih, dictExtend_dictExtend]
    rfl

theorem count_single (x y : Int) : [x].count y = if y = x then 1 else 0 := by
  by_cases h : y = x
  · subst h
    simp
  · rw [List.count_eq_zero_of_not_mem (by simp [h]), if_neg h]

theorem count_range_offset (bs bl j : Nat) :
    ((List.range bl).map (fun t => ((bs + t : Nat) : Int))).count (j : Int) =
      if bs ≤ j ∧ j < bs + bl then 1 else 0 := by
  induction bl with
  | zero =>
    simp only [List.range_zero, List.map_nil, List.count_nil]
    have : ¬ (bs ≤ j ∧ j < bs + 0) := by omega
    rw [if_neg this]
  | succ bl ih =>
    rw [List.range_succ, List.map_append, List.count_append, ih]
    show _ + ([((bs + bl : Nat) : Int)].count (j : Int)) = _
    rw [count_single]
    have hcast : ((j : Int) = ((bs + bl : Nat) : Int)) ↔ j = bs + bl := by omega
    by_cases h1 : bs ≤ j ∧ j < bs + bl
    · rw [if_pos h1, if_neg (by omega), if_pos (by omega)]
    · rw [if_neg h1]
      by_cases h2 : j = bs + bl
      · rw [if_pos (hcast.mpr h2), if_pos (by omega)]
      · rw [if_neg (fun hx => h2 (hcast.mp hx)), if_neg (by omega)]

theorem countIdx_assignOne (lines : List (List Char)) (r : Nat) (cm : ClusterMap)
    (v : Int) (hnd : (cmKeys cm).Nodup) (hne : cm ≠ []) :
    countIdx (assignOne lines r cm) v = countIdx cm v + [(r : Int)].count v := by
  unfold assignOne
  split
  next k heq => rw [countIdx_dictExtend _ _ _ _ hnd (findAssign_mem _ _ _ _ heq)]
  next heq => rw [countIdx_dictExtend _ _ _ _ hnd (argmaxKey_mem _ hne)]

theorem countIdx_assignBatch (cm : ClusterMap) (oc : Except Unit (List Char))
    (bs bl j : Nat) (hnd : (cmKeys cm).Nodup) (hne : cm ≠ []) :
    countIdx (assignBatch cm oc bs bl) (j : Int) =
      countIdx cm (j : Int) + (if bs ≤ j ∧ j < bs + bl then 1 else 0) := by
  unfold assignBatch
  split
  next e =>
    rw [foldl_dictExtend_collapse,
      countIdx_dictExtend _ _ _ _ hnd (argmaxKey_mem _ hne), count_range_offset]
  next result =>
    have key : ∀ (L : List Nat) (c : ClusterMap), (cmKeys c).Nodup → c ≠ [] →
        countIdx
            (L.foldl (fun c j2 => assignOne (splitOnChar '\n' result) (bs + j2) c) c)
            (j : Int) =
          countIdx c (j : Int) + (L.map (fun t => ((bs + t : Nat) : Int))).count (j : Int) := by
      intro L
      induction L with
      | nil => intro c _ _; simp
      | cons b L ih =>
        intro c hnd2 hne2
        rw [List.foldl_cons]
        have hk1 := cmKeys_assignOne (splitOnChar '\n' result) (bs + b) c
        have hnd3 : (cmKeys (assignOne (splitOnChar '\n' result) (bs + b) c)).Nodup := by
          rw [hk1]; exact hnd2
        have hne3 : assignOne (splitOnChar '\n' result) (bs + b) c ≠ [] := by
          intro h0
          apply hne2
          have hck : cmKeys c = [] := by rw [← hk1, h0]; rfl
          cases c with
          | nil => rfl
          | cons x xs => simp [cmKeys] at hck
        rw [ih _ hnd3 hne3, countIdx_assignOne _ _ _ _ hnd2 hne2, List.map_cons]
        simp only [List.count_cons, List.count_nil]
        omega
    rw [key _ cm hnd hne, count_range_offset]

theorem countIdx_assignLoop (resp : Nat → Except Unit (List Char)) (j : Nat) :
    ∀ n rem cm t bs, rem ≤ n → (cmKeys cm).Nodup → cm ≠ [] →
      countIdx (assignLoop resp cm t bs rem) (j : Int) =
        countIdx cm (j : Int) + (if bs ≤ j ∧ j < bs + rem then 1 else 0) := by
  intro n
  induction n with
  | zero =>
    intro rem cm t bs h _ _
    have h0 : rem = 0 := by omega
    subst h0
    have hcond : ¬ (bs ≤ j ∧ j < bs + 0) := by omega
    rw [assignLoop, if_pos rfl, if_neg hcond]
    omega
  | succ n ih =>
    intro rem cm t bs h hnd hne
    rw [assignLoop]
    by_cases h0 : rem = 0
    · have hcond : ¬ (bs ≤ j ∧ j < bs + rem) := by omega
      rw [if_pos h0, if_neg hcond]
      omega
    · rw [if_neg h0]
      have hbl : 1 ≤ min 30 rem ∧ min 30 rem ≤ rem := by omega
      have hk := cmKeys_assignBatch cm (resp t) bs (min 30 rem)
      have hnd2 : (cmKeys (assignBatch cm (resp t) bs (min 30 rem))).Nodup := by
        rw [hk]; exact hnd
      have hne2 : assignBatch cm (resp t) bs (min 30 rem) ≠ [] := by
        intro hx
        apply hne
        have : cmKeys cm = [] := by rw [← hk, hx]; rfl
        cases cm with
        | nil => rfl
        | cons x xs => simp [cmKeys] at this
      rw [ih _ _ _ _ (by omega) hnd2 hne2,
        countIdx_assignBatch cm (resp t) bs (min 30 rem) j hnd hne]
      by_cases c1 : bs ≤ j ∧ j < bs + min 30 rem
      · rw [if_pos c1, if_neg (by omega), if_pos (by omega)]
      · rw [if_neg c1]
        by_cases c2 : bs + min 30 rem ≤ j ∧ j < (bs + min 30 rem) + (rem - min 30 rem)
        · rw [if_pos c2, if_pos (by omega)]
        · rw [if_neg c2, if_neg (by omega)]

/-! ### `llm_cluster_posts` path characterizations -/

theorem countIdx_synth (M j : Nat) (hj : j < M) :
    countIdx [(0, rangeInt M)] (j : Int) = 1 := by
  rw [countIdx_cons, countIdx_nil]
  show (rangeInt M).count (j : Int) + 0 = 1
  rw [rangeInt_count M j hj]

theorem llm_cluster_posts_small {num_posts mcs : Nat} {o : OracleTrace}
    (hsz : num_posts ≤ INITIAL_SAMPLE_SIZE) (arrays : List (List Int))
    (hcr : o.clusterResp = .ok arrays) :
    llm_cluster_posts num_posts mcs o = cluster_initial_sample num_posts mcs arrays := by
  unfold llm_cluster_posts
  rw [if_pos hsz, hcr]

theorem llm_cluster_posts_small_err {num_posts mcs : Nat} {o : OracleTrace}
    (hsz : num_posts ≤ INITIAL_SAMPLE_SIZE) (e : Unit)
    (hcr : o.clusterResp = .error e) :
    llm_cluster_posts num_posts mcs o = [(0, rangeInt num_posts)] := by
  unfold llm_cluster_posts
  rw [if_pos hsz, hcr]

theorem llm_cluster_posts_large_err {num_posts mcs : Nat} {o : OracleTrace}
    (hsz : ¬ num_posts ≤ INITIAL_SAMPLE_SIZE) (e : Unit)
    (hcr : o.clusterResp = .error e) :
    llm_cluster_posts num_posts mcs o = [(0, rangeInt num_posts)] := by
  unfold llm_cluster_posts
  rw [if_neg hsz, hcr]

theorem llm_cluster_posts_large_ok {num_posts mcs : Nat} {o : OracleTrace}
    (hsz : ¬ num_posts ≤ INITIAL_SAMPLE_SIZE) (arrays : List (List Int))
    (hcr : o.clusterResp = .ok arrays) :
    llm_cluster_posts num_posts mcs o =
      if (List.range (cluster_initial_sample INITIAL_SAMPLE_SIZE mcs arrays).length).all
          o.themeOk then
        assignLoop o.assignResp (cluster_initial_sample INITIAL_SAMPLE_SIZE mcs arrays) 0
          INITIAL_SAMPLE_SIZE (num_posts - INITIAL_SAMPLE_SIZE)
      else [(0, rangeInt num_posts)] := by
  unfold llm_cluster_posts
  rw [if_neg hsz, hcr]
  have hne : ¬ ((cluster_initial_sample INITIAL_SAMPLE_SIZE mcs arrays).isEmpty = true) := by
    rw [List.isEmpty_iff]
    exact cluster_initial_sample_ne_nil _ _ _
  show (if (cluster_initial_sample INITIAL_SAMPLE_SIZE mcs arrays).isEmpty then
      [(0, rangeInt num_posts)]
    else if (List.range (cluster_initial_sample INITIAL_SAMPLE_SIZE mcs arrays).length).all
        o.themeOk then
      assignLoop o.assignResp (cluster_initial_sample INITIAL_SAMPLE_SIZE mcs arrays) 0
        INITIAL_SAMPLE_SIZE (num_posts - INITIAL_SAMPLE_SIZE)
    else [(0, rangeInt num_posts)]) = _
  rw [if_neg hne]

def c1CexTrace : OracleTrace := ⟨.ok [[0, 0, 1]], fun _ => true, fun _ => .error ()⟩

/-- C1 counterexample: for the category size M = 2, min_cluster_size 2
and the well-formed JSON oracle response `[[0, 0, 1]]` — which lists
index 0 twice inside one proposed cluster — the returned map is
`{0: [0, 0, 1]}`: index 0 occurs twice in the member lists, so the
result is not an exact partition of `{0, 1}` (the set-based
first-claim-wins filter never compares an index against its own
array, because `seen_indices` is only updated after the whole
comprehension). -/
theorem llm_cluster_posts_partition_counterexample :
    llm_cluster_posts 2 2 c1CexTrace = [(0, [0, 0, 1])] ∧
    ¬ (∀ j, j < 2 → countIdx (llm_cluster_posts 2 2 c1CexTrace) (j : Int) = 1) := by
  refine ⟨by decide, ?_⟩
  intro hcl
  exact absurd (hcl 0 (by omega)) (by decide)

/-- C1 (amended): for every category size, min-cluster floor and oracle
trace — malformed or failed responses included — whose parsed
clustering reply has no duplicate inside a single proposed array, the
cluster map returned by `llm_cluster_posts` is an exact partition of
`{0, …, M-1}`: every index occurs exactly once across all member lists,
on the small-category direct path, the large-category three-phase path
and every fallback path.  (The original claim, quantifying over all
responses, fails only when a single proposed array repeats an index;
duplicates across different arrays are handled by first-claim-wins.) -/
theorem llm_cluster_posts_exact_partition (num_posts mcs : Nat) (o : OracleTrace)
    (h : ∀ arrays, o.clusterResp = .ok arrays → ∀ a ∈ arrays, a.Nodup) :
    ∀ j, j < num_posts → countIdx (llm_cluster_posts num_posts mcs o) (j : Int) = 1 := by
  intro j hj
  have h100 : INITIAL_SAMPLE_SIZE = 100 := rfl
  by_cases hsz : num_posts ≤ INITIAL_SAMPLE_SIZE
  · cases hcr : o.clusterResp with
    | ok arrays =>
      rw [llm_cluster_posts_small hsz arrays hcr]
      exact cluster_initial_sample_partition _ _ _ (h arrays hcr) j hj
    | error e =>
      rw [llm_cluster_posts_small_err hsz e hcr]
      exact countIdx_synth _ _ hj
  · cases hcr : o.clusterResp with
    | error e =>
      rw [llm_cluster_posts_large_err hsz e hcr]
      exact countIdx_synth _ _ hj
    | ok arrays =>
      rw [llm_cluster_posts_large_ok hsz arrays hcr]
      by_cases hth : (List.range
          (cluster_initial_sample INITIAL_SAMPLE_SIZE mcs arrays).length).all o.themeOk
      · rw [if_pos hth]
        have hkeys := cluster_initial_sample_keys INITIAL_SAMPLE_SIZE mcs arrays
        have hknd : (cmKeys (cluster_initial_sample INITIAL_SAMPLE_SIZE mcs arrays)).Nodup := by
          rw [hkeys]
          exact List.nodup_range _
        have hne := cluster_initial_sample_ne_nil INITIAL_SAMPLE_SIZE mcs arrays
        rw [countIdx_assignLoop o.assignResp j (num_posts - INITIAL_SAMPLE_SIZE)
          (num_posts - INITIAL_SAMPLE_SIZE) _ _ _ le_rfl hknd hne]
        by_cases hj100 : j < INITIAL_SAMPLE_SIZE
        · rw [cluster_initial_sample_partition INITIAL_SAMPLE_SIZE mcs arrays
            (h arrays hcr) j hj100]
          have hcond : ¬ (INITIAL_SAMPLE_SIZE ≤ j ∧
              j < INITIAL_SAMPLE_SIZE + (num_posts - INITIAL_SAMPLE_SIZE)) := by omega
          rw [if_neg hcond]
        · have hz : countIdx (cluster_initial_sample INITIAL_SAMPLE_SIZE mcs arrays)
              (j : Int) = 0 := by
            rw [countIdx_eq_flat]
            apply List.count_eq_zero_of_not_mem
            intro hmem
            have hb := cluster_initial_sample_bounds INITIAL_SAMPLE_SIZE mcs arrays _ hmem
            rw [h100] at hb
            omega
          rw [hz, if_pos (by omega)]
      · rw [if_neg hth]
        exact countIdx_synth _ _ hj

def c1WitTrace : OracleTrace := ⟨.ok [[0, 1]], fun _ => true, fun _ => .error ()⟩

/-- Witness for C1 (amended): M = 3, min_cluster_size 2, response
`[[0, 1]]` (duplicate-free inner arrays) — every index 0, 1, 2 occurs
exactly once in the returned map. -/
theorem llm_cluster_posts_exact_partition_witness :
    (∀ a ∈ [[0, 1]], List.Nodup a) ∧
    countIdx (llm_cluster_posts 3 2 c1WitTrace) ((0 : Nat) : Int) = 1 ∧
    countIdx (llm_cluster_posts 3 2 c1WitTrace) ((1 : Nat) : Int) = 1 ∧
    countIdx (llm_cluster_posts 3 2 c1WitTrace) ((2 : Nat) : Int) = 1 := by
  have hyp : ∀ arrays, c1WitTrace.clusterResp = Except.ok arrays →
      ∀ a ∈ arrays, List.Nodup a := by
    intro arrays harr
    have h3 : (Except.ok [[0, 1]] : Except Unit (List (List Int))) = Except.ok arrays := harr
    injection h3 with h4
    subst h4
    decide
  refine ⟨by decide, ?_, ?_, ?_⟩
  · exact llm_cluster_posts_exact_partition 3 2 c1WitTrace hyp 0 (by omega)
  · exact llm_cluster_posts_exact_partition 3 2 c1WitTrace hyp 1 (by omega)
  · exact llm_cluster_posts_exact_partition 3 2 c1WitTrace hyp 2 (by omega)

/-- C4: for every oracle response, the cluster ids produced by direct
clustering are the consecutive integers `0, 1, …, K-1` with no gaps,
however many proposed clusters were rejected (filtered empty or below
`min_cluster_size`): a rejected or empty cluster consumes no id. -/
theorem cluster_initial_sample_ids_contiguous (M mcs : Nat) (arrays : List (List Int)) :
    cmKeys (cluster_initial_sample M mcs arrays) =
      List.range (cluster_initial_sample M mcs arrays).length :=
  cluster_initial_sample_keys M mcs arrays

/-- C10: direct clustering, whenever it returns instead of raising,
returns a cluster map with at least one cluster — when no proposed
cluster is accepted it synthesizes cluster 0 holding all the sample's
indices — and consequently the `if not clusters:` collapse branch of
the large-category path of `llm_cluster_posts` is unreachable: removing
it does not change the function. -/
theorem cluster_initial_sample_nonempty_guard_unreachable :
    (∀ M mcs arrays, cluster_initial_sample M mcs arrays ≠ []) ∧
    (∀ M mcs arrays, (clusterValidate M mcs arrays).clusters = [] →
      cluster_initial_sample M mcs arrays = [(0, rangeInt M)]) ∧
    (∀ num_posts mcs o, llm_cluster_posts num_posts mcs o =
      llm_cluster_posts_noEmptyCheck num_posts mcs o) := by
  refine ⟨fun M mcs arrays => cluster_initial_sample_ne_nil M mcs arrays,
    fun M mcs arrays h => cluster_initial_sample_of_empty h, ?_⟩
  intro num_posts mcs o
  unfold llm_cluster_posts llm_cluster_posts_noEmptyCheck
  by_cases hsz : num_posts ≤ INITIAL_SAMPLE_SIZE
  · rw [if_pos hsz, if_pos hsz]
  · rw [if_neg hsz, if_neg hsz]
    cases hcr : o.clusterResp with
    | error e => rfl
    | ok arrays =>
      have hne : ¬ ((cluster_initial_sample INITIAL_SAMPLE_SIZE mcs arrays).isEmpty = true) := by
        rw [List.isEmpty_iff]
        exact cluster_initial_sample_ne_nil _ _ _
      show (if (cluster_initial_sample INITIAL_SAMPLE_SIZE mcs arrays).isEmpty then
          [(0, rangeInt num_posts)]
        else if (List.range (cluster_initial_sample INITIAL_SAMPLE_SIZE mcs arrays).length).all
            o.themeOk then
          assignLoop o.assignResp (cluster_initial_sample INITIAL_SAMPLE_SIZE mcs arrays) 0
            INITIAL_SAMPLE_SIZE (num_posts - INITIAL_SAMPLE_SIZE)
        else [(0, rangeInt num_posts)]) = _
      rw [if_neg hne]

/-- Witness for C10's conditional conjunct: an oracle response proposing
no clusters at all leaves the validation state empty, and the synthetic
cluster 0 holds all indices. -/
theorem cluster_initial_sample_nonempty_guard_unreachable_witness :
    (clusterValidate 2 2 ([] : List (List Int))).clusters = [] ∧
    cluster_initial_sample 2 2 ([] : List (List Int)) = [(0, rangeInt 2)] := by
  refine ⟨by decide, ?_⟩
  exact cluster_initial_sample_nonempty_guard_unreachable.2.1 2 2 [] (by decide)

/-! ### C2 — per-record fallback lands in the current largest cluster -/

theorem assignOne_unmatched (lines : List (List Char)) (r : Nat) (cm : ClusterMap)
    (hfind : findAssign lines r cm = none) :
    assignOne lines r cm = dictExtend cm (argmaxKey cm) [(r : Int)] := by
  unfold assignOne
  rw [hfind]

theorem phase3_single_record (mcs : Nat) (o : OracleTrace) (arrays : List (List Int))
    (s : List Char) (hcr : o.clusterResp = .ok arrays)
    (hth : ∀ k, o.themeOk k = true) (hresp : o.assignResp 0 = .ok s)
    (hfind : findAssign (splitOnChar '\n' s) 100
      (cluster_initial_sample 100 mcs arrays) = none) :
    llm_cluster_posts 101 mcs o =
      dictExtend (cluster_initial_sample 100 mcs arrays)
        (argmaxKey (cluster_initial_sample 100 mcs arrays)) [(100 : Int)] := by
  rw [llm_cluster_posts_large_ok (by decide) arrays hcr]
  have hth2 : (List.range
      (cluster_initial_sample INITIAL_SAMPLE_SIZE mcs arrays).length).all o.themeOk = true := by
    rw [List.all_eq_true]
    intro k _
    exact hth k
  rw [if_pos hth2]
  have hS : INITIAL_SAMPLE_SIZE = 100 := rfl
  rw [hS]
  have hrem : (101 : Nat) - 100 = 1 := rfl
  rw [hrem]
  rw [assignLoop, if_neg (by omega : ¬ (1 : Nat) = 0)]
  have hmin : min 30 1 = 1 := rfl
  rw [hmin]
  have hz : (1 : Nat) - 1 = 0 := rfl
  rw [hz, assignLoop, if_pos rfl]
  rw [hresp]
  show (List.range 1).foldl
      (fun c j => assignOne (splitOnChar '\n' s) (100 + j) c)
      (cluster_initial_sample 100 mcs arrays) = _
  have hr1 : List.range 1 = [0] := rfl
  rw [hr1, List.foldl_cons, List.foldl_nil]
  have h100 : (100 : Nat) + 0 = 100 := rfl
  rw [h100, assignOne_unmatched _ _ _ hfind]
  norm_num

/-- C2: in phase-3 incremental assignment, a record whose response line
is missing, unparseable, or names an unknown cluster id is appended to
the cluster that is largest at the moment that record is processed —
the key is recomputed from the current, possibly phase-3-grown map, and
ties go to the earliest-inserted cluster — and in the M = SAMPLE_SIZE+1
run the single phase-3 record, when its line fails to parse, lands in
the cluster that is largest at that point. -/
theorem phase3_unmatched_goes_to_current_largest :
    (∀ (cm : ClusterMap) (lines : List (List Char)) (r : Nat), cm ≠ [] →
      findAssign lines r cm = none →
      assignOne lines r cm = dictExtend cm (argmaxKey cm) [(r : Int)] ∧
        IsFirstLargest cm (argmaxKey cm)) ∧
    (∀ (mcs : Nat) (o : OracleTrace) (arrays : List (List Int)) (s : List Char),
      o.clusterResp = .ok arrays → (∀ k, o.themeOk k = true) →
      o.assignResp 0 = .ok s →
      findAssign (splitOnChar '\n' s) 100 (cluster_initial_sample 100 mcs arrays) = none →
      llm_cluster_posts 101 mcs o =
        dictExtend (cluster_initial_sample 100 mcs arrays)
          (argmaxKey (cluster_initial_sample 100 mcs arrays)) [(100 : Int)] ∧
        IsFirstLargest (cluster_initial_sample 100 mcs arrays)
          (argmaxKey (cluster_initial_sample 100 mcs arrays))) := by
  constructor
  · intro cm lines r hne hfind
    exact ⟨assignOne_unmatched lines r cm hfind, argmaxKey_firstLargest cm hne⟩
  · intro mcs o arrays s hcr hth hresp hfind
    refine ⟨phase3_single_record mcs o arrays s hcr hth hresp hfind, ?_⟩
    exact argmaxKey_firstLargest _ (cluster_initial_sample_ne_nil 100 mcs arrays)

/-- Witness for C2: the map `{0: [0, 5], 1: [1, 2]}` — cluster 0 already
grown to size 2 by an earlier phase-3 assignment — receives record 6,
whose only response line names the unknown cluster id 99: the record is
appended to cluster 0, the first largest cluster of the current map
(a snapshot taken when the sizes were 1 and 2 would have chosen 1). -/
theorem phase3_unmatched_goes_to_current_largest_witness :
    (([(0, [0, 5]), (1, [1, 2])] : ClusterMap) ≠ [] ∧
      findAssign (splitOnChar '\n' "POST_6: 99".toList) 6
        [(0, [0, 5]), (1, [1, 2])] = none) ∧
    assignOne (splitOnChar '\n' "POST_6: 99".toList) 6 [(0, [0, 5]), (1, [1, 2])] =
      dictExtend [(0, [0, 5]), (1, [1, 2])]
        (argmaxKey [(0, [0, 5]), (1, [1, 2])]) [(6 : Int)] ∧
    IsFirstLargest [(0, [0, 5]), (1, [1, 2])] (argmaxKey [(0, [0, 5]), (1, [1, 2])]) := by
  refine ⟨⟨by decide, by decide⟩, ?_⟩
  exact phase3_unmatched_goes_to_current_largest.1
    [(0, [0, 5]), (1, [1, 2])] (splitOnChar '\n' "POST_6: 99".toList) 6
    (by decide) (by decide)

/-! ### C3 — provenance of accepted clusters

`validateProv` is the validation fold of `_cluster_initial_sample`
instrumented with the position of the proposed array each accepted
cluster was built from; it projects onto `clusterValidate`. -/

def provStep (M mcs : Nat) (st : List (Nat × Nat × List Int) × List Int × Nat)
    (ia : Nat × List Int) : List (Nat × Nat × List Int) × List Int × Nat :=
  if mcs ≤ (validOf M st.2.1 ia.2).length then
    (st.1 ++ [(ia.1, st.2.2, validOf M st.2.1 ia.2)],
      st.2.1 ++ validOf M st.2.1 ia.2, st.2.2 + 1)
  else st

def validateProv (M mcs : Nat) (arrays : List (List Int)) : List (Nat × Nat × List Int) :=
  ((arrays.enum).foldl (provStep M mcs) ([], [], 0)).1

def ProvRel (sp : List (Nat × Nat × List Int) × List Int × Nat) (sv : VState) : Prop :=
  sp.1.map (fun t => (t.2.1, t.2.2)) = sv.clusters ∧ sp.2.1 = sv.seen ∧ sp.2.2 = sv.next_id

theorem provStep_rel (M mcs : Nat) (sp : List (Nat × Nat × List Int) × List Int × Nat)
    (sv : VState) (n : Nat) (a : List Int) (h : ProvRel sp sv) :
    ProvRel (provStep M mcs sp (n, a)) (clusterStep M mcs sv a) := by
  obtain ⟨hc, hs, hn⟩ := h
  unfold provStep clusterStep
  rw [hs, hn]
  by_cases hcond : mcs ≤ (validOf M sv.seen a).length
  · rw [if_pos hcond, if_pos hcond]
    refine ⟨?_, rfl, rfl⟩
    show (sp.1 ++ [(n, sv.next_id, validOf M sv.seen a)]).map (fun t => (t.2.1, t.2.2)) = _
    rw [List.map_append, hc]
    rfl
  · rw [if_neg hcond, if_neg hcond]
    exact ⟨hc, hs, hn⟩

theorem prov_rel_fold (M mcs : Nat) :
    ∀ (l : List (List Int)) (n : Nat) (sp : List (Nat × Nat × List Int) × List Int × Nat)
      (sv : VState), ProvRel sp sv →
      ProvRel ((List.enumFrom n l).foldl (provStep M mcs) sp)
        (l.foldl (clusterStep M mcs) sv) := by
  intro l
  induction l with
  | nil => intro n sp sv h; exact h
  | cons a l ih =>
    intro n sp sv h
    show ProvRel (((n, a) :: List.enumFrom (n + 1) l).foldl (provStep M mcs) sp) _
    rw [List.foldl_cons, List.foldl_cons]
    exact ih (n + 1) _ _ (provStep_rel M mcs sp sv n a h)

theorem validateProv_proj (M mcs : Nat) (arrays : List (List Int)) :
    (validateProv M mcs arrays).map (fun t => (t.2.1, t.2.2)) =
      (clusterValidate M mcs arrays).clusters := by
  have h := prov_rel_fold M mcs arrays 0 ([], [], 0) ⟨[], [], 0⟩ ⟨rfl, rfl, rfl⟩
  exact h.1

theorem prov_srcs_fold (M mcs : Nat) :
    ∀ (l : List (List Int)) (n : Nat) (sp : List (Nat × Nat × List Int) × List Int × Nat),
      (∀ t ∈ sp.1, t.1 < n) → List.Pairwise (fun a b => a.1 < b.1) sp.1 →
      (∀ t ∈ ((List.enumFrom n l).foldl (provStep M mcs) sp).1, t.1 < n + l.length) ∧
        List.Pairwise (fun a b => a.1 < b.1)
          ((List.enumFrom n l).foldl (provStep M mcs) sp).1 := by
  intro l
  induction l with
  | nil =>
    intro n sp hb hp
    exact ⟨fun t ht => by have := hb t ht; simpa using by omega, hp⟩
  | cons a l ih =>
    intro n sp hb hp
    show (∀ t ∈ (((n, a) :: List.enumFrom (n + 1) l).foldl (provStep M mcs) sp).1,
        t.1 < n + (a :: l).length) ∧ _
    rw [List.foldl_cons]
    have hb2 : ∀ t ∈ (provStep M mcs sp (n, a)).1, t.1 < n + 1 := by
      intro t ht
      unfold provStep at ht
      split at ht
      · rcases List.mem_append.mp ht with h1 | h1
        · have := hb t h1
          omega
        · rcases List.mem_cons.mp h1 with h2 | h2
          · rw [h2]
            show n < n + 1
            omega
          · simp at h2
      · have := hb t ht
        omega
    have hp2 : List.Pairwise (fun a b => a.1 < b.1) (provStep M mcs sp (n, a)).1 := by
      unfold provStep
      split
      · rw [List.pairwise_append]
        refine ⟨hp, List.pairwise_singleton _ _, ?_⟩
        intro x hx y hy
        rcases List.mem_cons.mp hy with h2 | h2
        · rw [h2]
          exact hb x hx
        · simp at h2
      · exact hp
    have := ih (n + 1) (provStep M mcs sp (n, a)) hb2 hp2
    refine ⟨fun t ht => ?_, this.2⟩
    have := this.1 t ht
    simp only [List.length_cons]
    omega

theorem validateProv_srcs (M mcs : Nat) (arrays : List (List Int)) :
    List.Pairwise (fun a b => a.1 < b.1) (validateProv M mcs arrays) := by
  have h := prov_srcs_fold M mcs arrays 0 ([], [], 0)
    (fun t ht => absurd ht (List.not_mem_nil t)) List.Pairwise.nil
  exact h.2

theorem validateProv_members_pairwise (M mcs : Nat) (arrays : List (List Int)) :
    List.Pairwise (fun a b => ∀ d ∈ a.2.2, d ∉ b.2.2) (validateProv M mcs arrays) := by
  have hpw := (clusterValidate_inv M mcs arrays).2.2.2.2
  rw [← validateProv_proj M mcs arrays] at hpw
  rw [List.pairwise_map] at hpw
  exact hpw

/-- The C3 claim as stated: whenever an index is assigned to more than
one proposed array, only the earliest-listed array keeps it — every
occurrence in a later-listed array is filtered out of that array's
accepted cluster. -/
def DirectFirstListedWins : Prop :=
  ∀ (M mcs : Nat) (arrays : List (List Int)) (d : Int) (t : Nat × Nat × List Int),
    t ∈ validateProv M mcs arrays →
    (∃ i, i < t.1 ∧ d ∈ arrays.getD i []) → d ∉ t.2.2

/-- C3 counterexample: with M = 2, min_cluster_size 2 and response
`[[0], [0, 1]]`, the earlier array `[0]` is rejected for being below
the size floor (its indices are then not marked as seen), so the later
array keeps index 0: the single accepted cluster is built from array 1
and its member list contains 0, refuting first-LISTED-claim-wins. -/
theorem direct_first_listed_wins_counterexample :
    validateProv 2 2 [[0], [0, 1]] = [(1, 0, [0, 1])] ∧ ¬ DirectFirstListedWins := by
  refine ⟨by decide, ?_⟩
  intro h
  exact h 2 2 [[0], [0, 1]] 0 (1, 0, [0, 1]) (by decide) ⟨0, by decide, by decide⟩ (by decide)

/-- C3 (amended): first-ACCEPTED-claim-wins.  An index kept by an
accepted cluster is filtered out of every later-listed accepted
cluster (when every earlier array listing the index was rejected or
had it range-filtered, a later array may keep it), and the returned
cluster map holds each valid index in exactly one cluster. -/
theorem direct_first_accepted_claim_wins (M mcs : Nat) (arrays : List (List Int)) :
    (∀ t u, t ∈ validateProv M mcs arrays → u ∈ validateProv M mcs arrays →
      u.1 < t.1 → ∀ d, d ∈ u.2.2 → d ∉ t.2.2) ∧
    (∀ j, j < M →
      ((cluster_initial_sample M mcs arrays).countP fun p => decide ((j : Int) ∈ p.2)) = 1) := by
  refine ⟨?_, cluster_initial_sample_unique_cluster M mcs arrays⟩
  intro t u ht hu hlt d hdu
  obtain ⟨it, hit, het⟩ := List.getElem_of_mem ht
  obtain ⟨iu, hiu, heu⟩ := List.getElem_of_mem hu
  have hsrc := (List.pairwise_iff_getElem.mp (validateProv_srcs M mcs arrays))
  have hmem := (List.pairwise_iff_getElem.mp (validateProv_members_pairwise M mcs arrays))
  rcases Nat.lt_trichotomy iu it with h1 | h1 | h1
  · have := hmem iu it hiu hit h1
    rw [heu, het] at this
    exact this d hdu
  · subst h1
    have hut : u = t := by rw [← heu, het]
    rw [hut] at hlt
    exact absurd hlt (lt_irrefl _)
  · have := hsrc it iu hit hiu h1
    rw [heu, het] at this
    omega

/-- Witness for C3 (amended): M = 3, min_cluster_size 1, response
`[[0], [0, 1], [2]]` — the accepted cluster from array 1 keeps index 1
but not index 0 (claimed by the accepted cluster from array 0), and
index 0 lies in exactly one cluster of the final map. -/
theorem direct_first_accepted_claim_wins_witness :
    ((1, 1, [1]) ∈ validateProv 3 1 [[0], [0, 1], [2]] ∧
      (0, 0, [0]) ∈ validateProv 3 1 [[0], [0, 1], [2]] ∧
      (0 : Int) ∈ [(0 : Int)] ∧ (0 : Nat) < 1) ∧
    ((0 : Int) ∉ [(1 : Int)] ∧
      ((cluster_initial_sample 3 1 [[0], [0, 1], [2]]).countP
        fun p => decide (((0 : Nat) : Int) ∈ p.2)) = 1) := by
  refine ⟨⟨by decide, by decide, by decide, by decide⟩, ?_, ?_⟩
  · exact (direct_first_accepted_claim_wins 3 1 [[0], [0, 1], [2]]).1
      (1, 1, [1]) (0, 0, [0]) (by decide) (by decide) (by decide) 0 (by decide)
  · exact (direct_first_accepted_claim_wins 3 1 [[0], [0, 1], [2]]).2 0 (by decide)

/-! ### Insight generation per category (source lines 825–910)

```
cat_insights = []
for cluster_id, post_indices in sorted(clusters.items()):
    cluster_posts = [cat_posts[i] for i in post_indices if i < len(cat_posts)]
    if len(cluster_posts) < min_cluster_size:
        continue                       # dropped entirely
    ...
    cat_insights.append({..., "linked_posts": [p["id"] for p in cluster_posts],
                         "cluster_size": len(cluster_posts), ...})
if not cat_insights:
    cat_insights.append({..., "linked_posts": [p["id"] for p in cat_posts],
                         "cluster_size": len(cat_posts), ...})
```
This is the success-path model (each retained cluster's insight oracle
call succeeds; a failure would divert the whole category to the
`except` fallback).  A category's records are represented by their id
strings `ids`, an insight by its (`linked_posts`, `cluster_size`) pair;
the free-text `summary` is opaque and omitted.  Member indices coming
from the clustering engine are non-negative, so Python's negative-index
wrap-around in `cat_posts[i]` is never exercised; `List.getD` models
the in-bounds access. -/

def insertByKey (p : Nat × List Int) : ClusterMap → ClusterMap
  | [] => [p]
  | q :: qs => if p.1 ≤ q.1 then p :: q :: qs else q :: insertByKey p qs

/-- Python `sorted(clusters.items())` (unique integer keys). -/
def sortByKey (cm : ClusterMap) : ClusterMap := cm.foldr insertByKey []

def pyIndexGet (ids : List String) (i : Int) : String := ids.getD i.toNat ""

/-- `[cat_posts[i] for i in post_indices if i < len(cat_posts)]`,
projected to the record ids. -/
def clusterSelectedPosts (ids : List String) (mem : List Int) : List String :=
  (mem.filter fun i => decide (i < (ids.length : Int))).map fun i => pyIndexGet ids i

def catInsights (ids : List String) (mcs : Nat) (sorted : ClusterMap) :
    List (List String × Nat) :=
  sorted.foldl (fun acc p =>
    if (clusterSelectedPosts ids p.2).length < mcs then acc
    else acc ++ [(clusterSelectedPosts ids p.2, (clusterSelectedPosts ids p.2).length)]) []

def generate_insights_for_category (ids : List String) (mcs : Nat) (clusters : ClusterMap) :
    List (List String × Nat) :=
  if (catInsights ids mcs (sortByKey clusters)).isEmpty then [(ids, ids.length)]
  else catInsights ids mcs (sortByKey clusters)

theorem catInsights_eq_filter_map (ids : List String) (mcs : Nat) :
    ∀ (l : ClusterMap),
      catInsights ids mcs l =
        (l.filter fun p => decide (mcs ≤ (clusterSelectedPosts ids p.2).length)).map
          (fun p => (clusterSelectedPosts ids p.2, (clusterSelectedPosts ids p.2).length)) := by
  have key : ∀ (l : ClusterMap) (acc : List (List String × Nat)),
      l.foldl (fun acc p =>
        if (clusterSelectedPosts ids p.2).length < mcs then acc
        else acc ++ [(clusterSelectedPosts ids p.2, (clusterSelectedPosts ids p.2).length)])
        acc =
      acc ++ (l.filter fun p => decide (mcs ≤ (clusterSelectedPosts ids p.2).length)).map
        (fun p => (clusterSelectedPosts ids p.2, (clusterSelectedPosts ids p.2).length)) := by
    intro l
    induction l with
    | nil => intro acc; simp
    | cons p ps ih =>
      intro acc
      rw [List.foldl_cons]
      by_cases hlt : (clusterSelectedPosts ids p.2).length < mcs
      · rw [if_pos hlt, ih]
        have hfilt : (decide (mcs ≤ (clusterSelectedPosts ids p.2).length)) = false := by
          simp
          omega
        rw [List.filter_cons, hfilt]
        simp
      · rw [if_neg hlt, ih]
        have hfilt : (decide (mcs ≤ (clusterSelectedPosts ids p.2).length)) = true := by
          simp
          omega
        rw [List.filter_cons, hfilt]
        simp
  intro l
  exact key l []

theorem mem_insertByKey (p x : Nat × List Int) :
    ∀ (l : ClusterMap), x ∈ insertByKey p l ↔ x = p ∨ x ∈ l := by
  intro l
  induction l with
  | nil => simp [insertByKey]
  | cons q qs ih =>
    show x ∈ (if p.1 ≤ q.1 then p :: q :: qs else q :: insertByKey p qs) ↔ _
    by_cases h : p.1 ≤ q.1
    · rw [if_pos h]
      simp
    · rw [if_neg h]
      simp [ih]
      tauto

theorem mem_sortByKey (x : Nat × List Int) :
    ∀ (cm : ClusterMap), x ∈ sortByKey cm ↔ x ∈ cm := by
  intro cm
  induction cm with
  | nil => simp [sortByKey]
  | cons p ps ih =>
    show x ∈ insertByKey p (sortByKey ps) ↔ _
    rw [mem_insertByKey, ih]
    simp

theorem mem_clusterSelectedPosts (ids : List String) (mem : List Int) (x : String) :
    x ∈ clusterSelectedPosts ids mem ↔
      ∃ i ∈ mem, i < (ids.length : Int) ∧ pyIndexGet ids i = x := by
  simp only [clusterSelectedPosts, List.mem_map, List.mem_filter, decide_eq_true_eq]
  constructor
  · rintro ⟨i, ⟨hi, hlt⟩, rfl⟩
    exact ⟨i, hi, hlt, rfl⟩
  · rintro ⟨i, hi, hlt, rfl⟩
    exact ⟨i, ⟨hi, hlt⟩, rfl⟩

theorem clusterSelectedPosts_disjoint (ids : List String) (hids : ids.Nodup)
    (p q : Nat × List Int) (hnnp : ∀ i ∈ p.2, 0 ≤ i) (hnnq : ∀ i ∈ q.2, 0 ≤ i)
    (hdisj : ∀ d ∈ p.2, d ∉ q.2) :
    ∀ x ∈ clusterSelectedPosts ids p.2, x ∉ clusterSelectedPosts ids q.2 := by
  intro x hxp hxq
  obtain ⟨i, hip, hilt, hieq⟩ := (mem_clusterSelectedPosts ids p.2 x).mp hxp
  obtain ⟨i2, hiq, hi2lt, hi2eq⟩ := (mem_clusterSelectedPosts ids q.2 x).mp hxq
  have hi0 := hnnp i hip
  have hi20 := hnnq i2 hiq
  have hb1 : i.toNat < ids.length := by omega
  have hb2 : i2.toNat < ids.length := by omega
  have hg1 : pyIndexGet ids i = ids[i.toNat] := List.getD_eq_getElem ids "" hb1
  have hg2 : pyIndexGet ids i2 = ids[i2.toNat] := List.getD_eq_getElem ids "" hb2
  have heq : ids[i.toNat] = ids[i2.toNat] := by
    rw [← hg1, ← hg2, hieq, hi2eq]
  have hnat : i.toNat = i2.toNat := (List.Nodup.getElem_inj_iff hids).mp heq
  have hii : i = i2 := by omega
  rw [hii] at hip
  exact hdisj i2 hip hiq

/-- C5: in insight generation, every cluster whose final member count is
below `min_cluster_size` is excluded entirely: when at least one cluster
meets the floor, the produced insights are exactly one per retained
cluster (in key order) with `linked_posts` equal to that cluster's
member ids — and a dropped cluster's member ids appear in no produced
insight's `linked_posts` (they are not redistributed); only when zero
clusters meet the floor is a single category-wide fallback insight
produced, linking all of the category's records.  The hygiene
hypotheses (distinct record ids, non-negative and pairwise-disjoint
member lists) are those established for the clustering engine's output
by the partition invariants. -/
theorem below_floor_clusters_dropped (ids : List String) (mcs : Nat)
    (clusters : ClusterMap) (hids : ids.Nodup)
    (hnn : ∀ p ∈ clusters, ∀ i ∈ p.2, 0 ≤ i)
    (hdisj : List.Pairwise (fun p q => ∀ d ∈ p.2, d ∉ q.2) clusters) :
    ((∃ p ∈ clusters, mcs ≤ (clusterSelectedPosts ids p.2).length) →
      generate_insights_for_category ids mcs clusters =
        ((sortByKey clusters).filter fun p =>
          decide (mcs ≤ (clusterSelectedPosts ids p.2).length)).map
          (fun p => (clusterSelectedPosts ids p.2, (clusterSelectedPosts ids p.2).length)) ∧
      (∀ p ∈ clusters, (clusterSelectedPosts ids p.2).length < mcs →
        ∀ x ∈ clusterSelectedPosts ids p.2,
          ∀ ins ∈ generate_insights_for_category ids mcs clusters, x ∉ ins.1)) ∧
    ((∀ p ∈ clusters, (clusterSelectedPosts ids p.2).length < mcs) →
      generate_insights_for_category ids mcs clusters = [(ids, ids.length)]) := by
  constructor
  · intro hex
    obtain ⟨p0, hp0, hp0len⟩ := hex
    have hp0s : p0 ∈ sortByKey clusters := (mem_sortByKey p0 clusters).mpr hp0
    have hp0f : p0 ∈ (sortByKey clusters).filter
        fun p => decide (mcs ≤ (clusterSelectedPosts ids p.2).length) := by
      rw [List.mem_filter]
      exact ⟨hp0s, by simpa using hp0len⟩
    have hne : catInsights ids mcs (sortByKey clusters) ≠ [] := by
      rw [catInsights_eq_filter_map]
      intro hnil
      rw [List.map_eq_nil_iff] at hnil
      rw [hnil] at hp0f
      exact absurd hp0f (List.not_mem_nil _)
    have hfe : (catInsights ids mcs (sortByKey clusters)).isEmpty = false := by
      cases hcs : catInsights ids mcs (sortByKey clusters) with
      | nil => exact absurd hcs hne
      | cons a l => rfl
    have heq : generate_insights_for_category ids mcs clusters =
        ((sortByKey clusters).filter fun p =>
          decide (mcs ≤ (clusterSelectedPosts ids p.2).length)).map
          (fun p => (clusterSelectedPosts ids p.2, (clusterSelectedPosts ids p.2).length)) := by
      unfold generate_insights_for_category
      rw [hfe]
      show catInsights ids mcs (sortByKey clusters) = _
      exact catInsights_eq_filter_map ids mcs (sortByKey clusters)
    refine ⟨heq, ?_⟩
    intro p hp hplen x hx ins hins
    rw [heq] at hins
    obtain ⟨q, hqf, hqe⟩ := List.mem_map.mp hins
    have hq1 := List.mem_filter.mp hqf
    have hq : q ∈ clusters := (mem_sortByKey q clusters).mp hq1.1
    have hqlen : mcs ≤ (clusterSelectedPosts ids q.2).length := by simpa using hq1.2
    have hpq : p ≠ q := by
      intro hpe
      rw [hpe] at hplen
      omega
    have hsym : Symmetric (fun (p q : Nat × List Int) => ∀ d ∈ p.2, d ∉ q.2) := by
      intro a b hab d hdb hda
      exact hab d hda hdb
    have hdd : ∀ d ∈ p.2, d ∉ q.2 := List.Pairwise.forall hsym hdisj hp hq hpq
    have hnotin := clusterSelectedPosts_disjoint ids hids p q (hnn p hp) (hnn q hq) hdd x hx
    rw [← hqe] at hins
    intro hxin
    apply hnotin
    have : ins.1 = clusterSelectedPosts ids q.2 := by rw [← hqe]
    rw [this] at hxin
    exact hxin
  · intro hall
    unfold generate_insights_for_category
    have hnil : catInsights ids mcs (sortByKey clusters) = [] := by
      rw [catInsights_eq_filter_map]
      rw [List.map_eq_nil_iff, List.filter_eq_nil_iff]
      intro p hps
      have hp := (mem_sortByKey p clusters).mp hps
      have := hall p hp
      simp
      omega
    rw [hnil]
    rfl

def c5Ids : List String := ["a", "b", "c", "d", "e"]

def c5Clusters : ClusterMap := [(0, [0, 1]), (1, [2]), (2, [3, 4])]

/-- Witness for C5: with min_cluster_size 2, the singleton cluster
`{1: [2]}` is dropped — insights are produced only for the two retained
clusters, record "c" is linked nowhere — and with min_cluster_size 5
no cluster meets the floor and the single category-wide fallback links
all five records. -/
theorem below_floor_clusters_dropped_witness :
    (c5Ids.Nodup ∧ (∀ p ∈ c5Clusters, ∀ i ∈ p.2, 0 ≤ i) ∧
      (clusterSelectedPosts c5Ids [2]).length < 2 ∧
      2 ≤ (clusterSelectedPosts c5Ids [0, 1]).length) ∧
    generate_insights_for_category c5Ids 2 c5Clusters =
      [(["a", "b"], 2), (["d", "e"], 2)] ∧
    "c" ∉ ((["a", "b"] : List String), 2).1 ∧
    generate_insights_for_category c5Ids 5 c5Clusters = [(c5Ids, 5)] := by
  have hids : c5Ids.Nodup := by decide
  have hnn : ∀ p ∈ c5Clusters, ∀ i ∈ p.2, 0 ≤ i := by decide
  have hdisj : List.Pairwise (fun p q => ∀ d ∈ p.2, d ∉ q.2) c5Clusters := by decide
  have h1 := (below_floor_clusters_dropped c5Ids 2 c5Clusters hids hnn hdisj).1
    ⟨(0, [0, 1]), by decide, by decide⟩
  have h2 := (below_floor_clusters_dropped c5Ids 5 c5Clusters hids hnn hdisj).2 (by decide)
  have heq : generate_insights_for_category c5Ids 2 c5Clusters =
      [(["a", "b"], 2), (["d", "e"], 2)] := h1.1.trans (by decide)
  refine ⟨⟨hids, hnn, by decide, by decide⟩, heq, ?_, h2⟩
  exact h1.2 (1, [2]) (by decide) (by decide) "c" (by decide) (["a", "b"], 2)
    (by rw [heq]; decide)

/-! ### `run_pipeline` entry point (source lines 1259–1347)

```
try:
    ...
    posts = scrape_subreddit(subreddit, cutoff_utc, max_posts)
    if not posts:
        print("\n❌ No posts found. Exiting.")
        return
    summarized = summarize_posts(posts)
    categorized = categorize_posts(summarized, FIXED_CATEGORIES)
    insights = generate_insights_llm_clustering(...)
    output_path = save_outputs(...)
    generate_dashboard_json(...)
    print(f"\n✅ Pipeline completed successfully ...")
except Exception as e:
    print(f"\n❌ Pipeline failed: {e}")
    ...
    raise
```
The scraped records are the `posts` parameter; everything after the
emptiness check (the four stages plus saving) is abstracted into one
outcome `laterStages` (`.error` = some stage raised, which the
`except` block re-raises; `.ok` = the run completed).  The function
body contains no `return` of the aggregate: both the empty-input early
exit and the successful run return Python `None`. -/

inductive PipelineResult where
  | ret : Option Unit → PipelineResult
  | raised : PipelineResult
deriving DecidableEq

def run_pipeline {α : Type} (posts : List α) (laterStages : Except Unit Unit) :
    PipelineResult :=
  if posts.isEmpty then .ret none
  else
    match laterStages with
    | .ok _ => .ret none
    | .error _ => .raised

/-- The C8 claim as stated: on empty pipeline input the entry point
surfaces the failure by raising (it never returns normally without an
aggregate). -/
def EmptyInputSurfacedByRaising : Prop :=
  ∀ laterStages : Except Unit Unit,
    run_pipeline ([] : List Unit) laterStages = PipelineResult.raised

/-- C8 counterexample: with zero scraped records, `run_pipeline` prints
a message and executes a plain `return` — a normal return of `None`,
not a raise, and no aggregate — so the claimed surfacing-by-raising is
false. -/
theorem run_pipeline_empty_input_counterexample :
    run_pipeline ([] : List Unit) (.ok ()) = PipelineResult.ret none ∧
      ¬ EmptyInputSurfacedByRaising := by
  refine ⟨rfl, ?_⟩
  intro h
  have h2 := h (.ok ())
  rw [show run_pipeline ([] : List Unit) (.ok ()) = PipelineResult.ret none from rfl] at h2
  exact PipelineResult.noConfusion h2

/-- C8 (amended): on empty pipeline-level input `run_pipeline` returns
normally with `None` — no exception is raised and no aggregate is
surfaced to the caller; a failure in a later stage on non-empty input
does propagate as an exception; and no call ever returns an aggregate
(even a successful run returns `None`, its results go to disk). -/
theorem run_pipeline_empty_input_returns_none :
    (∀ laterStages : Except Unit Unit,
      run_pipeline ([] : List Unit) laterStages = PipelineResult.ret none) ∧
    (∀ (posts : List Unit) (e : Unit), posts ≠ [] →
      run_pipeline posts (.error e) = PipelineResult.raised) ∧
    (∀ (posts : List Unit) (laterStages : Except Unit Unit),
      run_pipeline posts laterStages ≠ PipelineResult.ret (some ())) := by
  refine ⟨fun laterStages => rfl, ?_, ?_⟩
  · intro posts e hne
    unfold run_pipeline
    have hie : posts.isEmpty = false := by
      cases posts with
      | nil => exact absurd rfl hne
      | cons a l => rfl
    rw [hie]
    rfl
  · intro posts laterStages
    unfold run_pipeline
    by_cases hie : posts.isEmpty
    · rw [if_pos hie]
      intro h
      injection h with h2
      exact Option.noConfusion h2
    · rw [if_neg hie]
      cases laterStages with
      | ok a =>
        intro h
        injection h with h2
        exact Option.noConfusion h2
      | error e => exact fun h => PipelineResult.noConfusion h

/-- Witness for C8 (amended): the empty run returns `None`; a failing
stage on a one-record input raises. -/
theorem run_pipeline_empty_input_returns_none_witness :
    (([()] : List Unit) ≠ []) ∧
    run_pipeline ([] : List Unit) (.ok ()) = PipelineResult.ret none ∧
    run_pipeline ([()] : List Unit) (.error ()) = PipelineResult.raised := by
  refine ⟨by decide, ?_, ?_⟩
  · exact run_pipeline_empty_input_returns_none.1 (.ok ())
  · exact run_pipeline_empty_input_returns_none.2.1 [()] () (by decide)
